import Mathlib

/-!
Verification of the best-first ("A*"-style) search engine of this repository
and of its day-17 client (`src/day17.rs`).

The `a_star` module and the `common` module (with `Position` and `Direction`)
are referenced from `src/day17.rs` (`use crate::a_star; use crate::common...`)
but their sources are not part of the `src/` tree; they are therefore modelled
from the specification (its §4.2 gives the algorithm step by step), while
everything from `day17.rs` is translated directly from the source.

Machine integers: costs are `u64` in the source and are modelled as `Nat`
(the specification speaks of abstract non-negative costs and none of the
claims concerns overflow); grid coordinates are `i64`, modelled as `Int`;
`steps_in_direction` is a `u8`, modelled as `Nat` (the search keeps it at most
`max_row ≤ 10`, far from any wrap-around).

Termination: the Rust loop has no fuel, so the loop is embedded with an
explicit fuel counter and an `outOfFuel` result; termination claims become
"there is a fuel bound past which the result is stable and not `outOfFuel`".
-/

namespace a_star

/-- Modelled from the spec: the `a_star` module is not under `src/`; §4.1 gives
the contract of its trait `State` (called `SearchState` in §3): a non-negative
admissible heuristic, a successor enumeration tagged with edge costs, and a
goal predicate (named `is_end` as in the source's trait use in `day17.rs`).
The capability set is bundled as a structure over the state type `σ`. -/
structure State (σ : Type) where
  heuristic : σ → Nat
  successors : σ → List (Nat × σ)
  is_end : σ → Bool

/-- Modelled from the spec: result of one `solve` call; `found` is the spec's
`Some { cost, final_state }` (the source's `Solution` with its `cost` field,
unwrapped in `day17.rs`), `exhausted` is `None`, and `outOfFuel` is the
artefact of the fuel embedding of the unbounded loop. -/
inductive SearchResult (σ : Type) where
  | found (cost : Nat) (state : σ)
  | exhausted
  | outOfFuel
deriving DecidableEq

/-- Priority of a frontier entry `(g, state)`: the spec's `g + h`. -/
def fval (S : State σ) (e : Nat × σ) : Nat :=
  e.1 + S.heuristic e.2

/-- Modelled from the spec: pop the frontier entry with the smallest `g + h`,
ties broken by insertion order (spec §4.2 step 1: "ties may be broken
arbitrarily, but consistently, e.g. by insertion order"); the frontier is kept
as a list in insertion order and the leftmost entry of minimal priority is
removed. -/
def popMin (S : State σ) : List (Nat × σ) → Option ((Nat × σ) × List (Nat × σ))
  | [] => none
  | e :: rest =>
    match popMin S rest with
    | none => some (e, [])
    | some (e', rest') =>
      if fval S e ≤ fval S e' then some (e, rest) else some (e', e :: rest')

/-- Modelled from the spec: step 3e — after marking `s` visited, each
successor `(c, u)` of `s` is pushed with accumulated cost `g + c` "unless its
key is already visited" (the visited set at that moment contains `s`). -/
def pushSuccessors (S : State σ) [DecidableEq σ] (g : Nat) (s : σ)
    (visited : List σ) : List (Nat × σ) :=
  (S.successors s).filterMap fun cu =>
    if cu.2 ∈ s :: visited then none else some (g + cu.1, cu.2)

/-- Modelled from the spec: the exploration loop, §4.2 step 3 — (a) empty
frontier yields `None`; (b) pop the smallest `g + h`; (c) discard the entry if
its key is already visited; (d) return `Some { cost := g }` if the popped
state satisfies the goal predicate; (e) otherwise mark it visited and push its
unvisited successors. `fuel` bounds the number of iterations. -/
def run (S : State σ) [DecidableEq σ] :
    Nat → List σ → List (Nat × σ) → SearchResult σ
  | 0, _, _ => .outOfFuel
  | fuel + 1, visited, frontier =>
    match popMin S frontier with
    | none => .exhausted
    | some ((g, s), rest) =>
      if s ∈ visited then run S fuel visited rest
      else if S.is_end s then .found g s
      else run S fuel (s :: visited) (rest ++ pushSuccessors S g s visited)

/-- Modelled from the spec: `solve(start_states)` — §4.2 steps 1 and 2: a
fresh empty visited set, and a frontier seeded with every start state at
`g = 0` (in the order the caller supplies them). -/
def solve (S : State σ) [DecidableEq σ] (starts : List σ) (fuel : Nat) :
    SearchResult σ :=
  run S fuel [] (starts.map fun s => (0, s))

/-- One-step equation of the loop when the frontier is empty. -/
theorem run_step_none {S : State σ} [DecidableEq σ] {fuel : Nat}
    {visited : List σ} {frontier : List (Nat × σ)}
    (hpop : popMin S frontier = none) :
    run S (fuel + 1) visited frontier = .exhausted := by
  rw [run, hpop]

/-- One-step equation of the loop when an entry is popped. -/
theorem run_step_some {S : State σ} [DecidableEq σ] {fuel : Nat}
    {visited : List σ} {frontier rest : List (Nat × σ)} {g : Nat} {s : σ}
    (hpop : popMin S frontier = some ((g, s), rest)) :
    run S (fuel + 1) visited frontier =
      if s ∈ visited then run S fuel visited rest
      else if S.is_end s then .found g s
      else run S fuel (s :: visited) (rest ++ pushSuccessors S g s visited) := by
  rw [run, hpop]

/-- Cost component of a search result: `some g` for `found g t`, `none`
otherwise (this is the `Option<...>.map(|s| s.cost)` view of the result). -/
def costOf : SearchResult σ → Option Nat
  | .found g _ => some g
  | _ => none

/-! ### Paths of the abstract state graph

A path is the list of `(edge cost, state)` hops taken from a state, each hop
drawn from `successors` of the state before it; these are the "paths" every
claim about optimality quantifies over. -/

/-- The hops of `p` can be taken in order starting from `s`. -/
def IsPath (S : State σ) : σ → List (Nat × σ) → Prop
  | _, [] => True
  | s, e :: p => e ∈ S.successors s ∧ IsPath S e.2 p

/-- Accumulated cost of a path: the sum of its edge costs. -/
def pathCost (p : List (Nat × σ)) : Nat :=
  (p.map Prod.fst).sum

/-- Final state of a path starting at `s`. -/
def pathEnd (s : σ) : List (Nat × σ) → σ
  | [] => s
  | e :: p => pathEnd e.2 p

/-- `u` is reachable from some state of `starts` by a path of cost `g`. -/
def ReachTo (S : State σ) (starts : List σ) (u : σ) (g : Nat) : Prop :=
  ∃ s0 ∈ starts, ∃ p, IsPath S s0 p ∧ pathCost p = g ∧ pathEnd s0 p = u

/-- Some path of cost `n` from some state of `starts` ends in a goal state:
`n` is an achievable accumulated cost of the search problem. -/
def GoalCost (S : State σ) (starts : List σ) (n : Nat) : Prop :=
  ∃ s0 ∈ starts, ∃ p, IsPath S s0 p ∧ pathCost p = n ∧
    S.is_end (pathEnd s0 p) = true

/-- The spec's admissibility contract (§4.1): the heuristic never exceeds the
cost of any path from the state to a goal state. -/
def Admissible (S : State σ) : Prop :=
  ∀ x p, IsPath S x p → S.is_end (pathEnd x p) = true →
    S.heuristic x ≤ pathCost p

/-- Consistency (monotonicity) of the heuristic: it decreases by at most the
edge cost along every edge.  This is the textbook precondition under which an
A* that never re-expands a finalized key (spec §3, VisitedSet invariant)
returns minimal costs. -/
def Consistent (S : State σ) : Prop :=
  ∀ x c u, (c, u) ∈ S.successors x → S.heuristic x ≤ c + S.heuristic u

theorem IsPath.append {S : State σ} :
    ∀ (p : List (Nat × σ)) (s : σ) (q : List (Nat × σ)),
      IsPath S s p → IsPath S (pathEnd s p) q → IsPath S s (p ++ q)
  | [], _, _, _, hq => hq
  | e :: p, s, q, hp, hq =>
    ⟨hp.1, IsPath.append p e.2 q hp.2 hq⟩

theorem pathEnd_append {σ : Type} :
    ∀ (p : List (Nat × σ)) (s : σ) (q : List (Nat × σ)),
      pathEnd s (p ++ q) = pathEnd (pathEnd s p) q
  | [], _, _ => rfl
  | _ :: p, _, q => pathEnd_append p _ q

theorem pathCost_append {σ : Type} (p q : List (Nat × σ)) :
    pathCost (p ++ q) = pathCost p + pathCost q := by
  simp [pathCost]

/-- Reachability extends along a single successor edge. -/
theorem ReachTo.step {S : State σ} {starts : List σ} {u : σ} {g : Nat}
    (h : ReachTo S starts u g) {c : Nat} {v : σ}
    (he : (c, v) ∈ S.successors u) : ReachTo S starts v (g + c) := by
  obtain ⟨s0, hs0, p, hp, hcost, hend⟩ := h
  refine ⟨s0, hs0, p ++ [(c, v)], ?_, ?_, ?_⟩
  · exact hp.append p s0 [(c, v)] (by rw [hend]; exact ⟨he, trivial⟩)
  · rw [pathCost_append, hcost]; simp [pathCost]
  · rw [pathEnd_append, hend]; rfl

/-- Every start state reaches itself at cost `0`. -/
theorem ReachTo.start {S : State σ} {starts : List σ} {s0 : σ}
    (h : s0 ∈ starts) : ReachTo S starts s0 0 :=
  ⟨s0, h, [], trivial, rfl, rfl⟩

/-- Enlarging the start set preserves reachability. -/
theorem ReachTo.mono {S : State σ} {starts starts' : List σ} {u : σ} {g : Nat}
    (hsub : ∀ x ∈ starts, x ∈ starts') (h : ReachTo S starts u g) :
    ReachTo S starts' u g := by
  obtain ⟨s0, hs0, p, hp⟩ := h
  exact ⟨s0, hsub s0 hs0, p, hp⟩

/-! ### Properties of `popMin` -/

theorem popMin_eq_none_iff (S : State σ) (l : List (Nat × σ)) :
    popMin S l = none ↔ l = [] := by
  cases l with
  | nil => simp [popMin]
  | cons e rest =>
    constructor
    · intro h
      cases hr : popMin S rest with
      | none => simp [popMin, hr] at h
      | some er => rcases er with ⟨e', rest'⟩; simp only [popMin, hr] at h; split at h <;> simp_all
    · intro h; cases h

/-- The frontier is the popped entry plus the remainder, up to permutation. -/
theorem popMin_perm (S : State σ) :
    ∀ (l : List (Nat × σ)) (e : Nat × σ) (rest : List (Nat × σ)),
      popMin S l = some (e, rest) → l.Perm (e :: rest) := by
  intro l
  induction l with
  | nil => intro e rest h; simp [popMin] at h
  | cons a t ih =>
    intro e rest h
    cases hr : popMin S t with
    | none =>
      rw [popMin_eq_none_iff] at hr
      subst hr
      simp [popMin] at h
      obtain ⟨he, hrest⟩ := h
      subst he; subst hrest
      exact List.Perm.refl _
    | some er =>
      rcases er with ⟨e', rest'⟩
      simp only [popMin, hr] at h
      split at h <;>
        simp only [Option.some.injEq, Prod.mk.injEq] at h
      · obtain ⟨he, hrest⟩ := h
        subst he
        subst hrest
        exact List.Perm.refl _
      · obtain ⟨he, hrest⟩ := h
        subst he
        subst hrest
        exact ((ih e' rest' hr).cons a).trans (List.Perm.swap e' a rest')

/-- The popped entry belongs to the frontier. -/
theorem popMin_mem (S : State σ) {l : List (Nat × σ)} {e : Nat × σ}
    {rest : List (Nat × σ)} (h : popMin S l = some (e, rest)) : e ∈ l :=
  (popMin_perm S l e rest h).mem_iff.mpr (List.mem_cons_self e rest)

/-- Every member of the frontier is the popped entry or a member of the
remainder. -/
theorem popMin_mem_of_mem (S : State σ) {l : List (Nat × σ)} {e : Nat × σ}
    {rest : List (Nat × σ)} (h : popMin S l = some (e, rest)) {x : Nat × σ}
    (hx : x ∈ l) : x = e ∨ x ∈ rest := by
  have := (popMin_perm S l e rest h).mem_iff.mp hx
  simpa using this

/-- Every member of the remainder is a member of the frontier. -/
theorem popMin_rest_subset (S : State σ) {l : List (Nat × σ)} {e : Nat × σ}
    {rest : List (Nat × σ)} (h : popMin S l = some (e, rest)) {x : Nat × σ}
    (hx : x ∈ rest) : x ∈ l :=
  (popMin_perm S l e rest h).mem_iff.mpr (List.mem_cons_of_mem e hx)

/-- The popped entry has minimal priority `g + h` over the whole frontier. -/
theorem popMin_min (S : State σ) :
    ∀ (l : List (Nat × σ)) (e : Nat × σ) (rest : List (Nat × σ)),
      popMin S l = some (e, rest) → ∀ x ∈ l, fval S e ≤ fval S x := by
  intro l
  induction l with
  | nil => intro e rest h; simp [popMin] at h
  | cons a t ih =>
    intro e rest h x hx
    cases hr : popMin S t with
    | none =>
      rw [popMin_eq_none_iff] at hr
      subst hr
      simp [popMin] at h
      obtain ⟨he, _⟩ := h
      subst he
      simp at hx
      subst hx
      exact Nat.le_refl _
    | some er =>
      rcases er with ⟨e', rest'⟩
      simp only [popMin, hr] at h
      split at h <;>
        simp only [Option.some.injEq, Prod.mk.injEq] at h
      · obtain ⟨he, -⟩ := h
        subst he
        rcases List.mem_cons.mp hx with hax | hxt
        · subst hax; exact Nat.le_refl _
        · exact Nat.le_trans (by assumption) (ih e' rest' hr x hxt)
      · obtain ⟨he, -⟩ := h
        subst he
        rcases List.mem_cons.mp hx with hax | hxt
        · subst hax
          exact Nat.le_of_lt (Nat.lt_of_not_le (by assumption))
        · exact ih e' rest' hr x hxt

/-- Membership in the push list: exactly the unvisited successors, with the
accumulated cost `g +` edge cost. -/
theorem mem_pushSuccessors (S : State σ) [DecidableEq σ] {g : Nat} {s : σ}
    {visited : List σ} {x : Nat × σ} :
    x ∈ pushSuccessors S g s visited ↔
      ∃ c u, (c, u) ∈ S.successors s ∧ u ∉ s :: visited ∧ x = (g + c, u) := by
  simp only [pushSuccessors, List.mem_filterMap]
  constructor
  · rintro ⟨⟨c, u⟩, hmem, hx⟩
    by_cases hu : u ∈ s :: visited
    · simp [hu] at hx
    · simp only [hu, if_false, Option.some.injEq] at hx
      exact ⟨c, u, hmem, hu, hx.symm⟩
  · rintro ⟨c, u, hmem, hu, hx⟩
    exact ⟨(c, u), hmem, by simp [hu, hx]⟩

/-! ### The soundness invariant of the loop

It holds for the seeded loop state, is preserved by every iteration, and
needs no condition on the heuristic.  It yields: a `found g t` result is a
real goal of accumulated cost `g`, and an `exhausted` result means no path
from any start reaches a goal. -/

/-- Loop invariant: (frontier) every frontier entry is reached by a real path
of exactly its accumulated cost; (visitedNotGoal) finalized states failed the
goal test; (closed) every successor of a finalized state is finalized or still
on the frontier; (seeded) every start state is finalized or on the frontier. -/
structure InvSound (S : State σ) (starts visited : List σ)
    (frontier : List (Nat × σ)) : Prop where
  frontier_reach : ∀ e ∈ frontier, ReachTo S starts e.2 e.1
  visitedNotGoal : ∀ v ∈ visited, S.is_end v = false
  closed : ∀ v ∈ visited, ∀ c u, (c, u) ∈ S.successors v →
    u ∈ visited ∨ ∃ g, (g, u) ∈ frontier
  seeded : ∀ s0 ∈ starts, s0 ∈ visited ∨ ∃ g, (g, s0) ∈ frontier

theorem invSound_init (S : State σ) (starts : List σ) :
    InvSound S starts [] (starts.map fun s => (0, s)) where
  frontier_reach := by
    intro e he
    rcases List.mem_map.mp he with ⟨s0, hs0, rfl⟩
    exact ReachTo.start hs0
  visitedNotGoal := by intro v hv; cases hv
  closed := by intro v hv; cases hv
  seeded := by
    intro s0 hs0
    exact Or.inr ⟨0, List.mem_map.mpr ⟨s0, hs0, rfl⟩⟩

/-- Discarding an already-finalized popped entry preserves the invariant. -/
theorem invSound_discard {S : State σ} {starts visited : List σ}
    {frontier rest : List (Nat × σ)} {g : Nat} {s : σ}
    (inv : InvSound S starts visited frontier)
    (hpop : popMin S frontier = some ((g, s), rest)) (hs : s ∈ visited) :
    InvSound S starts visited rest where
  frontier_reach := fun e he =>
    inv.frontier_reach e (popMin_rest_subset S hpop he)
  visitedNotGoal := inv.visitedNotGoal
  closed := by
    intro v hv c u hcu
    rcases inv.closed v hv c u hcu with hu | ⟨g', hg'⟩
    · exact Or.inl hu
    · rcases popMin_mem_of_mem S hpop hg' with heq | hmem
      · cases heq; exact Or.inl hs
      · exact Or.inr ⟨g', hmem⟩
  seeded := by
    intro s0 hs0
    rcases inv.seeded s0 hs0 with hv | ⟨g', hg'⟩
    · exact Or.inl hv
    · rcases popMin_mem_of_mem S hpop hg' with heq | hmem
      · cases heq; exact Or.inl hs
      · exact Or.inr ⟨g', hmem⟩

/-- Expanding a fresh non-goal popped state preserves the invariant. -/
theorem invSound_expand {S : State σ} [DecidableEq σ] {starts visited : List σ}
    {frontier rest : List (Nat × σ)} {g : Nat} {s : σ}
    (inv : InvSound S starts visited frontier)
    (hpop : popMin S frontier = some ((g, s), rest)) (hs : s ∉ visited)
    (hend : S.is_end s = false) :
    InvSound S starts (s :: visited) (rest ++ pushSuccessors S g s visited) where
  frontier_reach := by
    intro e he
    rcases List.mem_append.mp he with hr | hp
    · exact inv.frontier_reach e (popMin_rest_subset S hpop hr)
    · rcases (mem_pushSuccessors S).mp hp with ⟨c, u, hcu, -, rfl⟩
      exact (inv.frontier_reach (g, s) (popMin_mem S hpop)).step hcu
  visitedNotGoal := by
    intro v hv
    rcases List.mem_cons.mp hv with rfl | hv'
    · exact hend
    · exact inv.visitedNotGoal v hv'
  closed := by
    intro v hv c u hcu
    rcases List.mem_cons.mp hv with rfl | hv'
    · by_cases hu : u ∈ v :: visited
      · exact Or.inl hu
      · refine Or.inr ⟨g + c, List.mem_append.mpr (Or.inr ?_)⟩
        exact (mem_pushSuccessors S).mpr ⟨c, u, hcu, hu, rfl⟩
    · rcases inv.closed v hv' c u hcu with hu | ⟨g', hg'⟩
      · exact Or.inl (List.mem_cons_of_mem s hu)
      · rcases popMin_mem_of_mem S hpop hg' with heq | hmem
        · cases heq; exact Or.inl (List.mem_cons_self s visited)
        · exact Or.inr ⟨g', List.mem_append.mpr (Or.inl hmem)⟩
  seeded := by
    intro s0 hs0
    rcases inv.seeded s0 hs0 with hv | ⟨g', hg'⟩
    · exact Or.inl (List.mem_cons_of_mem s hv)
    · rcases popMin_mem_of_mem S hpop hg' with heq | hmem
      · cases heq; exact Or.inl (List.mem_cons_self s visited)
      · exact Or.inr ⟨g', List.mem_append.mpr (Or.inl hmem)⟩

/-- A `found g t` result certifies a real path: `t` is a goal state and the
accumulated cost `g` is achieved by a path from some start state. -/
theorem run_found_sound {S : State σ} [DecidableEq σ] {starts : List σ} :
    ∀ (fuel : Nat) (visited : List σ) (frontier : List (Nat × σ)) (g : Nat)
      (t : σ), InvSound S starts visited frontier →
      run S fuel visited frontier = .found g t →
      S.is_end t = true ∧ ReachTo S starts t g := by
  intro fuel
  induction fuel with
  | zero => intro _ _ _ _ _ h; simp [run] at h
  | succ fuel ih =>
    intro visited frontier g t inv hrun
    rw [run] at hrun
    split at hrun
    · cases hrun
    · next g' s rest hpop =>
      by_cases hs : s ∈ visited
      · rw [if_pos hs] at hrun
        exact ih visited rest g t (invSound_discard inv hpop hs) hrun
      · rw [if_neg hs] at hrun
        cases hend : S.is_end s with
        | true =>
          rw [hend, if_pos rfl] at hrun
          cases hrun
          exact ⟨hend, inv.frontier_reach (g, t) (popMin_mem S hpop)⟩
        | false =>
          rw [hend] at hrun
          simp only [Bool.false_eq_true, if_false] at hrun
          exact ih _ _ g t (invSound_expand inv hpop hs hend) hrun

/-- If the frontier is empty and the invariant holds, every state reachable
from a start is finalized (hence not a goal). -/
theorem visited_closed_all {S : State σ} {starts visited : List σ}
    (inv : InvSound S starts visited []) :
    ∀ (p : List (Nat × σ)) (x : σ), x ∈ visited → IsPath S x p →
      pathEnd x p ∈ visited := by
  intro p
  induction p with
  | nil => intro x hx _; exact hx
  | cons e q ih =>
    intro x hx hp
    rcases inv.closed x hx e.1 e.2 hp.1 with hu | ⟨g, hg⟩
    · exact ih e.2 hu hp.2
    · cases hg

/-- An `exhausted` result is complete: no path from any start state reaches a
goal state.  This needs no assumption on the heuristic. -/
theorem run_exhausted_complete {S : State σ} [DecidableEq σ] {starts : List σ} :
    ∀ (fuel : Nat) (visited : List σ) (frontier : List (Nat × σ)),
      InvSound S starts visited frontier →
      run S fuel visited frontier = .exhausted →
      ∀ n, ¬ GoalCost S starts n := by
  intro fuel
  induction fuel with
  | zero => intro _ _ _ h; simp [run] at h
  | succ fuel ih =>
    intro visited frontier inv hrun
    rw [run] at hrun
    split at hrun
    · next hpop =>
      rw [popMin_eq_none_iff] at hpop
      subst hpop
      rintro n ⟨s0, hs0, p, hp, -, hgoal⟩
      have hs0v : s0 ∈ visited := by
        rcases inv.seeded s0 hs0 with hv | ⟨g, hg⟩
        · exact hv
        · cases hg
      have : pathEnd s0 p ∈ visited := visited_closed_all inv p s0 hs0v hp
      rw [inv.visitedNotGoal _ this] at hgoal
      cases hgoal
    · next g' s rest hpop =>
      by_cases hs : s ∈ visited
      · rw [if_pos hs] at hrun
        exact ih visited rest (invSound_discard inv hpop hs) hrun
      · rw [if_neg hs] at hrun
        cases hend : S.is_end s with
        | true => rw [hend, if_pos rfl] at hrun; cases hrun
        | false =>
          rw [hend] at hrun
          simp only [Bool.false_eq_true, if_false] at hrun
          exact ih _ _ (invSound_expand inv hpop hs hend) hrun

/-! ### Termination on effectively finite state spaces

When every state reachable from the start states belongs to a list `L`, the
loop finishes: each state-key is finalized at most once (the expand branch
only fires for keys not yet in the visited set), so the measure
"unvisited reachable keys, weighted by the branching bound, plus frontier
size" strictly decreases at every iteration.  `fuelBound` is an explicit
sufficient amount of fuel. -/

/-- Largest successor-list length over the candidate list `L`. -/
def maxBranch (S : State σ) (L : List σ) : Nat :=
  (L.map fun u => (S.successors u).length).foldr max 0

/-- Number of keys of `L` (without duplicates) not yet finalized. -/
def unvisitedCount [DecidableEq σ] (L visited : List σ) : Nat :=
  (L.dedup.filter fun u => decide (u ∉ visited)).length

/-- The loop measure: every iteration strictly decreases it. -/
def searchMeasure (S : State σ) [DecidableEq σ] (L visited : List σ)
    (frontier : List (Nat × σ)) : Nat :=
  unvisitedCount L visited * (maxBranch S L + 1) + frontier.length

/-- Explicit fuel sufficient for a search whose reachable states lie in `L`. -/
def fuelBound (S : State σ) [DecidableEq σ] (L starts : List σ) : Nat :=
  L.dedup.length * (maxBranch S L + 1) + starts.length + 1

theorem length_le_maxBranch (S : State σ) {L : List σ} {u : σ} (h : u ∈ L) :
    (S.successors u).length ≤ maxBranch S L := by
  induction L with
  | nil => cases h
  | cons a t ih =>
    rcases List.mem_cons.mp h with rfl | ht
    · exact Nat.le_max_left _ _ |>.trans (Nat.le_refl _)
    · exact (ih ht).trans (Nat.le_max_right _ _)

theorem length_filter_mono {α : Type u_1} (l : List α) (p q : α → Bool)
    (h : ∀ x, q x = true → p x = true) :
    (l.filter q).length ≤ (l.filter p).length := by
  induction l with
  | nil => exact Nat.le_refl _
  | cons a t ih =>
    by_cases hq : q a = true
    · rw [List.filter_cons_of_pos hq, List.filter_cons_of_pos (h a hq)]
      simpa using ih
    · rw [List.filter_cons_of_neg (by simpa using hq)]
      by_cases hp : p a = true
      · rw [List.filter_cons_of_pos hp]
        exact ih.trans (by simp)
      · rw [List.filter_cons_of_neg (by simpa using hp)]
        exact ih

theorem length_filter_cons_lt {α : Type u_1} [DecidableEq α] {visited : List α}
    {s : α} (hs : s ∉ visited) :
    ∀ (l : List α), s ∈ l →
      (l.filter fun u => decide (u ∉ s :: visited)).length <
        (l.filter fun u => decide (u ∉ visited)).length := by
  have hmono : ∀ (t : List α),
      (t.filter fun u => decide (u ∉ s :: visited)).length ≤
        (t.filter fun u => decide (u ∉ visited)).length := by
    intro t
    refine length_filter_mono t _ _ ?_
    intro x hx
    simp only [decide_eq_true_eq] at hx ⊢
    intro hxv
    exact hx (List.mem_cons_of_mem s hxv)
  intro l
  induction l with
  | nil => intro hd; cases hd
  | cons a t ih =>
    intro hd
    by_cases has : a = s
    · subst has
      rw [List.filter_cons_of_neg (by simp),
        List.filter_cons_of_pos (by simpa using hs)]
      have := hmono t
      simp only [List.length_cons]
      omega
    · have ht : s ∈ t := by
        rcases List.mem_cons.mp hd with h | h
        · exact absurd h.symm has
        · exact h
      by_cases hav : a ∈ visited
      · rw [List.filter_cons_of_neg (by simp [hav]),
          List.filter_cons_of_neg (by simp [hav])]
        exact ih ht
      · rw [List.filter_cons_of_pos (by simp [has, hav]),
          List.filter_cons_of_pos (by simp [hav])]
        simp only [List.length_cons]
        have := ih ht
        omega

theorem unvisitedCount_lt [DecidableEq σ] {L visited : List σ} {s : σ}
    (hL : s ∈ L) (hs : s ∉ visited) :
    unvisitedCount L (s :: visited) < unvisitedCount L visited := by
  unfold unvisitedCount
  exact @length_filter_cons_lt σ _ visited s hs L.dedup (List.mem_dedup.mpr hL)

theorem measure_arith (X Y B rl pl : Nat) (h1 : X + (B + 1) ≤ Y)
    (h2 : pl ≤ B) : X + (rl + pl) < Y + (rl + 1) := by
  omega

/-- With more fuel than the measure, the loop does not run out of fuel. -/
theorem run_not_outOfFuel {S : State σ} [DecidableEq σ] {starts L : List σ}
    (HL : ∀ u g, ReachTo S starts u g → u ∈ L) :
    ∀ (fuel : Nat) (visited : List σ) (frontier : List (Nat × σ)),
      InvSound S starts visited frontier →
      searchMeasure S L visited frontier < fuel →
      run S fuel visited frontier ≠ .outOfFuel := by
  intro fuel
  induction fuel with
  | zero => intro _ _ _ h; omega
  | succ fuel ih =>
    intro visited frontier inv hmeas
    rw [run]
    split
    · intro h; cases h
    · next g s rest hpop =>
      have hperm := popMin_perm S frontier (g, s) rest hpop
      have hlen : frontier.length = rest.length + 1 := by
        simpa using hperm.length_eq
      by_cases hs : s ∈ visited
      · rw [if_pos hs]
        refine ih visited rest (invSound_discard inv hpop hs) ?_
        unfold searchMeasure at hmeas ⊢
        omega
      · rw [if_neg hs]
        have hsL : s ∈ L :=
          HL s g (inv.frontier_reach (g, s) (popMin_mem S hpop))
        cases hend : S.is_end s with
        | true => simp only [hend, if_pos]; intro h; cases h
        | false =>
          simp only [hend, Bool.false_eq_true, if_false]
          refine ih _ _ (invSound_expand inv hpop hs hend) ?_
          have hcount := @unvisitedCount_lt σ _ L visited s hsL hs
          have hpush : (pushSuccessors S g s visited).length ≤ maxBranch S L :=
            (List.length_filterMap_le _ _).trans (length_le_maxBranch S hsL)
          have hmul : (unvisitedCount L (s :: visited) + 1) *
              (maxBranch S L + 1) ≤
              unvisitedCount L visited * (maxBranch S L + 1) :=
            Nat.mul_le_mul_right _ hcount
          rw [Nat.add_mul, Nat.one_mul] at hmul
          unfold searchMeasure at hmeas ⊢
          rw [List.length_append]
          have := measure_arith
            (unvisitedCount L (s :: visited) * (maxBranch S L + 1))
            (unvisitedCount L visited * (maxBranch S L + 1))
            (maxBranch S L) rest.length (pushSuccessors S g s visited).length
            hmul hpush
          omega

/-- Once the result is not `outOfFuel`, adding fuel does not change it. -/
theorem run_mono {S : State σ} [DecidableEq σ] :
    ∀ (fuel : Nat) (visited : List σ) (frontier : List (Nat × σ)),
      run S fuel visited frontier ≠ .outOfFuel →
      run S (fuel + 1) visited frontier = run S fuel visited frontier := by
  intro fuel
  induction fuel with
  | zero => intro _ _ h; exact absurd rfl h
  | succ fuel ih =>
    intro visited frontier h
    cases hpop : popMin S frontier with
    | none => simp only [run_step_none hpop]
    | some er =>
      rcases er with ⟨⟨g, s⟩, rest⟩
      simp only [run_step_some hpop] at h ⊢
      by_cases hs : s ∈ visited
      · rw [if_pos hs, if_pos hs]
        rw [if_pos hs] at h
        exact ih visited rest h
      · rw [if_neg hs, if_neg hs]
        rw [if_neg hs] at h
        cases hend : S.is_end s with
        | true => simp
        | false =>
          rw [hend] at h
          simp only [Bool.false_eq_true, if_false] at h ⊢
          exact ih _ _ h

/-- Fuel monotonicity, general form. -/
theorem run_stable {S : State σ} [DecidableEq σ] {fuel fuel' : Nat}
    {visited : List σ} {frontier : List (Nat × σ)}
    (h : run S fuel visited frontier ≠ .outOfFuel) (hle : fuel ≤ fuel') :
    run S fuel' visited frontier = run S fuel visited frontier := by
  obtain ⟨k, rfl⟩ := Nat.exists_eq_add_of_le hle
  clear hle
  induction k with
  | zero => rfl
  | succ k ih =>
    have hstep : fuel + (k + 1) = (fuel + k) + 1 := rfl
    rw [hstep, run_mono (fuel + k) visited frontier (by rw [ih]; exact h), ih]

/-- Initial measure bound: `fuelBound` exceeds the measure of the seeded
loop state. -/
theorem searchMeasure_init (S : State σ) [DecidableEq σ] (L starts : List σ) :
    searchMeasure S L [] (starts.map fun s => (0, s)) < fuelBound S L starts := by
  unfold searchMeasure fuelBound unvisitedCount
  have hle : (L.dedup.filter fun u => decide (u ∉ ([] : List σ))).length ≤
      L.dedup.length := List.length_filter_le _ _
  simp only [List.length_map]
  have := Nat.mul_le_mul_right (maxBranch S L + 1) hle
  omega

/-- `solve` with fuel `fuelBound` terminates: the result is not `outOfFuel`. -/
theorem solve_not_outOfFuel {S : State σ} [DecidableEq σ] {starts L : List σ}
    (HL : ∀ u g, ReachTo S starts u g → u ∈ L) {fuel : Nat}
    (hfuel : fuelBound S L starts ≤ fuel) :
    solve S starts fuel ≠ .outOfFuel := by
  unfold solve
  have hinit := searchMeasure_init S L starts
  exact run_not_outOfFuel HL fuel [] _ (invSound_init S starts)
    (Nat.lt_of_lt_of_le hinit hfuel)

/-! ### Optimality under a consistent heuristic

The classical A*-with-closed-set argument.  The invariant carries a ghost
cost `gv v` for every finalized key `v` (the accumulated cost it was popped
with) and states: finalized keys were popped in non-decreasing `g + h` order
(`mono_f`), their `gv` respects the edge costs inside the finalized region
(`edge_le`), every edge out of the finalized region has a frontier entry at
most `gv + c` (`closed_le`), and every start is finalized (at cost 0) or on
the frontier at cost 0.  Preservation of the invariant is exactly where
consistency of the heuristic is needed. -/

/-- The ghost-cost invariant that backs the optimality proof. -/
structure InvOpt (S : State σ) (starts visited : List σ)
    (frontier : List (Nat × σ)) (gv : σ → Nat) : Prop where
  closed_le : ∀ v ∈ visited, ∀ c u, (c, u) ∈ S.successors v →
    u ∈ visited ∨ ∃ g, (g, u) ∈ frontier ∧ g ≤ gv v + c
  seeded_le : ∀ s0 ∈ starts, s0 ∈ visited ∨ ∃ g, (g, s0) ∈ frontier ∧ g ≤ 0
  start_zero : ∀ s0 ∈ starts, s0 ∈ visited → gv s0 ≤ 0
  edge_le : ∀ v ∈ visited, ∀ c u, (c, u) ∈ S.successors v → u ∈ visited →
    gv u ≤ gv v + c
  mono_f : ∀ v ∈ visited, ∀ e ∈ frontier, gv v + S.heuristic v ≤ fval S e

theorem invOpt_init (S : State σ) (starts : List σ) :
    InvOpt S starts [] (starts.map fun s => (0, s)) (fun _ => 0) where
  closed_le := by intro v hv; cases hv
  seeded_le := by
    intro s0 hs0
    exact Or.inr ⟨0, List.mem_map.mpr ⟨s0, hs0, rfl⟩, Nat.le_refl 0⟩
  start_zero := by intro s0 _ hv; cases hv
  edge_le := by intro v hv; cases hv
  mono_f := by intro v hv; cases hv

theorem invOpt_discard {S : State σ} {starts visited : List σ}
    {frontier rest : List (Nat × σ)} {gv : σ → Nat} {g : Nat} {s : σ}
    (inv : InvOpt S starts visited frontier gv)
    (hpop : popMin S frontier = some ((g, s), rest)) (hs : s ∈ visited) :
    InvOpt S starts visited rest gv where
  closed_le := by
    intro v hv c u hcu
    rcases inv.closed_le v hv c u hcu with hu | ⟨g', hmem, hle⟩
    · exact Or.inl hu
    · rcases popMin_mem_of_mem S hpop hmem with heq | hmem'
      · cases heq; exact Or.inl hs
      · exact Or.inr ⟨g', hmem', hle⟩
  seeded_le := by
    intro s0 hs0
    rcases inv.seeded_le s0 hs0 with hv | ⟨g', hmem, hle⟩
    · exact Or.inl hv
    · rcases popMin_mem_of_mem S hpop hmem with heq | hmem'
      · cases heq; exact Or.inl hs
      · exact Or.inr ⟨g', hmem', hle⟩
  start_zero := inv.start_zero
  edge_le := inv.edge_le
  mono_f := fun v hv e he => inv.mono_f v hv e (popMin_rest_subset S hpop he)

theorem invOpt_expand {S : State σ} [DecidableEq σ] {starts visited : List σ}
    {frontier rest : List (Nat × σ)} {gv : σ → Nat} {g : Nat} {s : σ}
    (hcons : Consistent S) (inv : InvOpt S starts visited frontier gv)
    (hpop : popMin S frontier = some ((g, s), rest)) (hs : s ∉ visited) :
    InvOpt S starts (s :: visited) (rest ++ pushSuccessors S g s visited)
      (fun x => if x = s then g else gv x) := by
  have hmin : ∀ e ∈ frontier, g + S.heuristic s ≤ fval S e :=
    popMin_min S frontier (g, s) rest hpop
  have hne : ∀ v ∈ visited, v ≠ s := fun v hv heq => hs (heq ▸ hv)
  constructor
  case closed_le =>
    intro v hv c u hcu
    rcases List.mem_cons.mp hv with rfl | hv'
    · by_cases hu : u ∈ v :: visited
      · exact Or.inl hu
      · refine Or.inr ⟨g + c, List.mem_append.mpr
          (Or.inr ((mem_pushSuccessors S).mpr ⟨c, u, hcu, hu, rfl⟩)), ?_⟩
        simp
    · rcases inv.closed_le v hv' c u hcu with hu | ⟨g', hmem, hle⟩
      · exact Or.inl (List.mem_cons_of_mem s hu)
      · rcases popMin_mem_of_mem S hpop hmem with heq | hmem'
        · cases heq; exact Or.inl (List.mem_cons_self s visited)
        · refine Or.inr ⟨g', List.mem_append.mpr (Or.inl hmem'), ?_⟩
          rw [if_neg (hne v hv')]
          exact hle
  case seeded_le =>
    intro s0 hs0
    rcases inv.seeded_le s0 hs0 with hv | ⟨g', hmem, hle⟩
    · exact Or.inl (List.mem_cons_of_mem s hv)
    · rcases popMin_mem_of_mem S hpop hmem with heq | hmem'
      · cases heq; exact Or.inl (List.mem_cons_self s visited)
      · exact Or.inr ⟨g', List.mem_append.mpr (Or.inl hmem'), hle⟩
  case start_zero =>
    intro s0 hs0 hv
    rcases List.mem_cons.mp hv with rfl | hv'
    · rw [if_pos rfl]
      rcases inv.seeded_le s0 hs0 with hv0 | ⟨g', hmem, hle⟩
      · exact absurd hv0 hs
      · have := hmin (g', s0) hmem
        unfold fval at this
        simp only at this
        omega
    · rw [if_neg (hne s0 hv')]
      exact inv.start_zero s0 hs0 hv'
  case edge_le =>
    intro v hv c u hcu hu
    rcases List.mem_cons.mp hv with rfl | hv'
    · rw [if_pos rfl]
      rcases List.mem_cons.mp hu with rfl | hu'
      · rw [if_pos rfl]; omega
      · rw [if_neg (hne u hu')]
        have h1 : gv u + S.heuristic u ≤ g + S.heuristic v :=
          inv.mono_f u hu' (g, v) (popMin_mem S hpop)
        have h2 : S.heuristic v ≤ c + S.heuristic u := hcons v c u hcu
        omega
    · rw [if_neg (hne v hv')]
      rcases List.mem_cons.mp hu with rfl | hu'
      · rw [if_pos rfl]
        rcases inv.closed_le v hv' c u hcu with hu0 | ⟨g', hmem, hle⟩
        · exact absurd hu0 hs
        · have := hmin (g', u) hmem
          unfold fval at this
          simp only at this
          omega
      · rw [if_neg (hne u hu')]
        exact inv.edge_le v hv' c u hcu hu'
  case mono_f =>
    intro v hv e he
    rcases List.mem_append.mp he with hr | hp
    · rcases List.mem_cons.mp hv with rfl | hv'
      · rw [if_pos rfl]
        exact hmin e (popMin_rest_subset S hpop hr)
      · rw [if_neg (hne v hv')]
        exact inv.mono_f v hv' e (popMin_rest_subset S hpop hr)
    · rcases (mem_pushSuccessors S).mp hp with ⟨c, u, hcu, -, rfl⟩
      have h2 : S.heuristic s ≤ c + S.heuristic u := hcons s c u hcu
      rcases List.mem_cons.mp hv with rfl | hv'
      · rw [if_pos rfl]
        unfold fval
        simp only
        omega
      · rw [if_neg (hne v hv')]
        have h1 : gv v + S.heuristic v ≤ g + S.heuristic s :=
          inv.mono_f v hv' (g, s) (popMin_mem S hpop)
        unfold fval
        simp only
        omega

/-- Telescoping consistency along a path: the heuristic at the first state is
at most the path cost plus the heuristic at the last state. -/
theorem heuristic_le_path {S : State σ} (hcons : Consistent S) :
    ∀ (p : List (Nat × σ)) (x : σ), IsPath S x p →
      S.heuristic x ≤ pathCost p + S.heuristic (pathEnd x p) := by
  intro p
  induction p with
  | nil =>
    intro x _
    simp [pathCost, pathEnd]
  | cons e r ih =>
    intro x hp
    have h1 : S.heuristic x ≤ e.1 + S.heuristic e.2 :=
      hcons x e.1 e.2 (by simpa using hp.1)
    have h2 := ih e.2 hp.2
    have h3 : pathCost (e :: r) = e.1 + pathCost r := by simp [pathCost]
    have h4 : pathEnd x (e :: r) = pathEnd e.2 r := rfl
    rw [h3, h4]
    omega

/-- Along any path from inside the invariant's "covered" region to an
unfinalized state, some frontier entry has priority at most the bound plus
the path cost plus the heuristic at the path's end. -/
theorem frontier_below_path {S : State σ} {starts visited : List σ}
    {frontier : List (Nat × σ)} {gv : σ → Nat}
    (inv : InvOpt S starts visited frontier gv) (hcons : Consistent S) :
    ∀ (r : List (Nat × σ)) (x : σ) (Q : Nat),
      IsPath S x r → pathEnd x r ∉ visited →
      ((x ∈ visited ∧ gv x ≤ Q) ∨ (∃ g, (g, x) ∈ frontier ∧ g ≤ Q)) →
      ∃ e ∈ frontier, fval S e ≤ Q + pathCost r + S.heuristic (pathEnd x r) := by
  intro r
  induction r with
  | nil =>
    intro x Q _ hnv hx
    rcases hx with ⟨hv, -⟩ | ⟨g, hmem, hg⟩
    · exact absurd hv hnv
    · refine ⟨(g, x), hmem, ?_⟩
      unfold fval
      simp only [pathCost, pathEnd, List.map_nil, List.sum_nil]
      omega
  | cons e r ih =>
    intro x Q hp hnv hx
    have hpe : pathEnd x (e :: r) = pathEnd e.2 r := rfl
    have hpc : pathCost (e :: r) = e.1 + pathCost r := by simp [pathCost]
    rcases hx with ⟨hv, hgv⟩ | ⟨g, hmem, hg⟩
    · have hsucc : (e.1, e.2) ∈ S.successors x := by simpa using hp.1
      rcases inv.closed_le x hv e.1 e.2 hsucc with hu | ⟨g', hmem', hg'⟩
      · have hgu : gv e.2 ≤ Q + e.1 :=
          Nat.le_trans (inv.edge_le x hv e.1 e.2 hsucc hu) (by omega)
        obtain ⟨w, hw, hwle⟩ :=
          ih e.2 (Q + e.1) hp.2 (by rw [hpe] at hnv; exact hnv)
            (Or.inl ⟨hu, hgu⟩)
        refine ⟨w, hw, ?_⟩
        rw [hpe, hpc]
        omega
      · have hg2 : g' ≤ Q + e.1 := Nat.le_trans hg' (by omega)
        obtain ⟨w, hw, hwle⟩ :=
          ih e.2 (Q + e.1) hp.2 (by rw [hpe] at hnv; exact hnv)
            (Or.inr ⟨g', hmem', hg2⟩)
        refine ⟨w, hw, ?_⟩
        rw [hpe, hpc]
        omega
    · refine ⟨(g, x), hmem, ?_⟩
      have htel := heuristic_le_path hcons (e :: r) x hp
      unfold fval
      simp only
      omega

/-- If some goal is achievable at cost `n`, the frontier holds an entry of
priority at most `n` (provided both invariants hold and the heuristic is
admissible and consistent). -/
theorem frontier_below_goal {S : State σ} {starts visited : List σ}
    {frontier : List (Nat × σ)} {gv : σ → Nat}
    (invS : InvSound S starts visited frontier)
    (inv : InvOpt S starts visited frontier gv)
    (hcons : Consistent S) (hadm : Admissible S) {n : Nat}
    (hgoal : GoalCost S starts n) :
    ∃ e ∈ frontier, fval S e ≤ n := by
  obtain ⟨s0, hs0, p, hp, hcost, hend⟩ := hgoal
  have hnv : pathEnd s0 p ∉ visited := by
    intro hv
    rw [invS.visitedNotGoal _ hv] at hend
    cases hend
  have hx : (s0 ∈ visited ∧ gv s0 ≤ 0) ∨ ∃ g, (g, s0) ∈ frontier ∧ g ≤ 0 := by
    rcases inv.seeded_le s0 hs0 with hv | h
    · exact Or.inl ⟨hv, inv.start_zero s0 hs0 hv⟩
    · exact Or.inr h
  obtain ⟨w, hw, hwle⟩ := frontier_below_path inv hcons p s0 0 hp hnv hx
  have hzero : S.heuristic (pathEnd s0 p) = 0 :=
    Nat.le_zero.mp (hadm (pathEnd s0 p) [] trivial hend)
  refine ⟨w, hw, ?_⟩
  rw [hzero, hcost] at hwle
  omega

/-- The accumulated cost of a `found` result is a lower bound of every
achievable goal cost, i.e. it is minimal. -/
theorem run_found_min {S : State σ} [DecidableEq σ] {starts : List σ}
    (hcons : Consistent S) (hadm : Admissible S) :
    ∀ (fuel : Nat) (visited : List σ) (frontier : List (Nat × σ))
      (gv : σ → Nat) (g : Nat) (t : σ),
      InvSound S starts visited frontier →
      InvOpt S starts visited frontier gv →
      run S fuel visited frontier = .found g t →
      ∀ n, GoalCost S starts n → g ≤ n := by
  intro fuel
  induction fuel with
  | zero => intro _ _ _ _ _ _ _ h; simp [run] at h
  | succ fuel ih =>
    intro visited frontier gv g t invS inv hrun n hgoal
    cases hpop : popMin S frontier with
    | none => rw [run_step_none hpop] at hrun; cases hrun
    | some er =>
      rcases er with ⟨⟨g', s⟩, rest⟩
      rw [run_step_some hpop] at hrun
      by_cases hs : s ∈ visited
      · rw [if_pos hs] at hrun
        exact ih visited rest gv g t (invSound_discard invS hpop hs)
          (invOpt_discard inv hpop hs) hrun n hgoal
      · rw [if_neg hs] at hrun
        cases hend : S.is_end s with
        | true =>
          rw [hend, if_pos rfl] at hrun
          injection hrun with h1 h2
          subst h1
          subst h2
          obtain ⟨e, he, hele⟩ := frontier_below_goal invS inv hcons hadm hgoal
          have hmin := popMin_min S frontier (g', s) rest hpop e he
          unfold fval at hmin hele
          simp only at hmin
          omega
        | false =>
          rw [hend] at hrun
          simp only [Bool.false_eq_true, if_false] at hrun
          exact ih _ _ _ g t (invSound_expand invS hpop hs hend)
            (invOpt_expand hcons inv hpop hs) hrun n hgoal

/-- A list containing the starts and closed under successors contains every
reachable state. -/
theorem reach_subset {S : State σ} {starts L : List σ}
    (hstarts : ∀ s ∈ starts, s ∈ L)
    (hclosed : ∀ x ∈ L, ∀ c u, (c, u) ∈ S.successors x → u ∈ L) :
    ∀ u g, ReachTo S starts u g → u ∈ L := by
  have hwalk : ∀ (p : List (Nat × σ)) (x : σ), x ∈ L → IsPath S x p →
      pathEnd x p ∈ L := by
    intro p
    induction p with
    | nil => intro x hx _; exact hx
    | cons e q ih =>
      intro x hx hp
      exact ih e.2 (hclosed x hx e.1 e.2 (by simpa using hp.1)) hp.2
  rintro u g ⟨s0, hs0, p, hp, -, hend⟩
  rw [← hend]
  exact hwalk p s0 (hstarts s0 hs0) hp

/-! ### The engine's input/output contract, assembled -/

/-- `g` is achievable and no achievable goal cost is smaller. -/
def IsMinGoalCost (S : State σ) (starts : List σ) (g : Nat) : Prop :=
  GoalCost S starts g ∧ ∀ n, GoalCost S starts n → g ≤ n

/-- Fuel-stability at the `solve` level. -/
theorem solve_stable {S : State σ} [DecidableEq σ] {starts : List σ}
    {fuel fuel' : Nat} (h : solve S starts fuel ≠ .outOfFuel)
    (hle : fuel ≤ fuel') : solve S starts fuel' = solve S starts fuel :=
  run_stable h hle

/-- Master correctness statement: with reachable states inside `L`, an
admissible and consistent heuristic, and fuel at least `fuelBound`, the
search either finds a minimal-cost goal or correctly reports that no goal is
reachable. -/
theorem solve_spec (S : State σ) [DecidableEq σ] (L starts : List σ)
    (HL : ∀ u g, ReachTo S starts u g → u ∈ L)
    (hadm : Admissible S) (hcons : Consistent S) (fuel : Nat)
    (hfuel : fuelBound S L starts ≤ fuel) :
    (∃ g t, solve S starts fuel = .found g t ∧ IsMinGoalCost S starts g) ∨
      (solve S starts fuel = .exhausted ∧ ∀ n, ¬ GoalCost S starts n) := by
  have hnotOOF := solve_not_outOfFuel HL hfuel
  cases hres : solve S starts fuel with
  | outOfFuel => exact absurd hres hnotOOF
  | exhausted =>
    refine Or.inr ⟨rfl, ?_⟩
    exact run_exhausted_complete fuel [] _ (invSound_init S starts) hres
  | found g t =>
    refine Or.inl ⟨g, t, rfl, ?_, ?_⟩
    · obtain ⟨hend, s0, hs0, p, hp, hc, he⟩ :=
        run_found_sound fuel [] _ g t (invSound_init S starts) hres
      exact ⟨s0, hs0, p, hp, hc, by rw [he]; exact hend⟩
    · exact run_found_min hcons hadm fuel [] _ (fun _ => 0) g t
        (invSound_init S starts) (invOpt_init S starts) hres

/-- A consistent heuristic vanishing on goal states is admissible. -/
theorem admissible_of_consistent (S : State σ) (hcons : Consistent S)
    (hgoal : ∀ x, S.is_end x = true → S.heuristic x = 0) : Admissible S := by
  intro x p hp hend
  have h := heuristic_le_path hcons p x hp
  rw [hgoal _ hend] at h
  omega

/-- The spec's "heuristic replaced by the constant-zero function". -/
def zeroHeuristic (S : State σ) : State σ :=
  { S with heuristic := fun _ => 0 }

theorem zeroHeuristic_admissible (S : State σ) :
    Admissible (zeroHeuristic S) :=
  fun _ _ _ _ => Nat.zero_le _

theorem zeroHeuristic_consistent (S : State σ) :
    Consistent (zeroHeuristic S) :=
  fun _ _ _ _ => Nat.zero_le _

/-! ### Concrete state graphs used by the claims

`cexSpace` is the classic graph showing that an A* that never re-expands
finalized keys can return a sub-optimal cost under a heuristic that is
admissible but not consistent: the only flaw is `heuristic A = 5` together
with the cheap edge `A →1→ B` with `heuristic B = 0` (`5 > 1 + 0`). -/

inductive V4 where
  | S | A | B | G
deriving DecidableEq

/-- Edge costs: `S →1→ A →1→ B →4→ G` and a direct `S →3→ B`; the optimal
goal cost from `S` is `1 + 1 + 4 = 6`, the sub-optimal route `S →3→ B →4→ G`
costs `7`.  The heuristic is admissible (`5` is the true distance from `A`)
but not consistent. -/
def cexSpace : State V4 where
  heuristic := fun v => match v with
    | .S => 0 | .A => 5 | .B => 0 | .G => 0
  successors := fun v => match v with
    | .S => [(1, .A), (3, .B)]
    | .A => [(1, .B)]
    | .B => [(4, .G)]
    | .G => []
  is_end := fun v => match v with
    | .G => true | _ => false

theorem cexSpace_admissible : Admissible cexSpace := by
  intro x p hp hend
  cases x with
  | S => exact Nat.zero_le _
  | B => exact Nat.zero_le _
  | G => exact Nat.zero_le _
  | A =>
    rcases p with _ | ⟨⟨c1, t1⟩, p⟩
    · exact absurd hend (by decide)
    · obtain ⟨h1, hp⟩ := hp
      simp only [cexSpace, List.mem_singleton, Prod.mk.injEq] at h1
      obtain ⟨rfl, rfl⟩ := h1
      rcases p with _ | ⟨⟨c2, t2⟩, p⟩
      · exact absurd hend (by decide)
      · obtain ⟨h2, hp⟩ := hp
        simp only [cexSpace, List.mem_singleton, Prod.mk.injEq] at h2
        obtain ⟨rfl, rfl⟩ := h2
        rcases p with _ | ⟨⟨c3, t3⟩, p⟩
        · decide
        · obtain ⟨h3, -⟩ := hp
          simp [cexSpace] at h3

theorem cexSpace_goal6 : GoalCost cexSpace [V4.S] 6 := by
  refine ⟨V4.S, by decide, [(1, V4.A), (1, V4.B), (4, V4.G)], ?_, by decide, by decide⟩
  exact ⟨by decide, by decide, by decide, trivial⟩

theorem cexSpace_goal6_zero : GoalCost (zeroHeuristic cexSpace) [V4.S] 6 := by
  refine ⟨V4.S, by decide, [(1, V4.A), (1, V4.B), (4, V4.G)], ?_, by decide, by decide⟩
  exact ⟨by decide, by decide, by decide, trivial⟩

/-- An exact-distance (hence admissible and consistent) heuristic on the
same graph. -/
def distHeuristic : V4 → Nat
  | .S => 6 | .A => 5 | .B => 4 | .G => 0

def distSpace : State V4 :=
  { cexSpace with heuristic := distHeuristic }

theorem distSpace_consistent : Consistent distSpace := by
  intro x c u h
  cases x <;> cases u <;>
    simp [distSpace, cexSpace, distHeuristic] at h ⊢ <;>
    omega

theorem distSpace_admissible : Admissible distSpace :=
  admissible_of_consistent distSpace distSpace_consistent
    (by intro x h; cases x <;> simp [distSpace, cexSpace, distHeuristic] at h ⊢)

theorem V4_mem_all : ∀ u : V4, u ∈ [V4.S, V4.A, V4.B, V4.G] := by
  intro u; cases u <;> decide

/-- C1 counterexample: on `cexSpace`, with its admissible heuristic and
non-negative costs, `solve` returns cost `7` although a goal is achievable at
cost `6`, so the returned cost is not the minimum achievable cost. -/
theorem admissible_only_not_minimal :
    Admissible cexSpace ∧
      solve cexSpace [V4.S] 10 = .found 7 V4.G ∧
      GoalCost cexSpace [V4.S] 6 ∧ ¬ (7 : Nat) ≤ 6 :=
  ⟨cexSpace_admissible, by decide, cexSpace_goal6, by decide⟩

/-- C1 (amended): for every finite state graph with non-negative edge costs
and an admissible AND CONSISTENT heuristic, `solve` on a non-empty start
collection returns `found` with the minimum achievable accumulated cost among
all paths from any start to any goal state, and returns `exhausted` (`None`)
iff no goal-satisfying state is reachable (fuel beyond the explicit
finiteness bound `fuelBound`; `L` lists the reachable states). -/
theorem solve_min_of_consistent (S : State σ) [DecidableEq σ]
    (L starts : List σ) (hne : starts ≠ [])
    (HL : ∀ u g, ReachTo S starts u g → u ∈ L)
    (hadm : Admissible S) (hcons : Consistent S) (fuel : Nat)
    (hfuel : fuelBound S L starts ≤ fuel) :
    ((∃ n, GoalCost S starts n) →
      ∃ g t, solve S starts fuel = .found g t ∧ IsMinGoalCost S starts g) ∧
    ((¬ ∃ n, GoalCost S starts n) → solve S starts fuel = .exhausted) := by
  rcases solve_spec S L starts HL hadm hcons fuel hfuel with
    ⟨g, t, hfound, hmin⟩ | ⟨hex, hnone⟩
  · constructor
    · intro _
      exact ⟨g, t, hfound, hmin⟩
    · intro hno
      exact absurd ⟨g, hmin.1⟩ hno
  · constructor
    · rintro ⟨n, hn⟩
      exact absurd hn (hnone n)
    · intro _
      exact hex

/-- Witness for C1's amended theorem at a concrete instance: the same graph
with the zero heuristic (admissible and consistent); a goal is reachable, and
the theorem yields a minimal `found` result. -/
theorem solve_min_of_consistent_witness :
    ([V4.S] ≠ ([] : List V4)) ∧
    fuelBound (zeroHeuristic cexSpace) [V4.S, V4.A, V4.B, V4.G] [V4.S] ≤ 30 ∧
    (∃ g t, solve (zeroHeuristic cexSpace) [V4.S] 30 = .found g t ∧
      IsMinGoalCost (zeroHeuristic cexSpace) [V4.S] g) := by
  refine ⟨by decide, by decide, ?_⟩
  exact (solve_min_of_consistent (zeroHeuristic cexSpace)
    [V4.S, V4.A, V4.B, V4.G] [V4.S] (by decide)
    (fun u g _ => V4_mem_all u)
    (zeroHeuristic_admissible cexSpace) (zeroHeuristic_consistent cexSpace)
    30 (by decide)).1 ⟨6, cexSpace_goal6_zero⟩

/-! ### Replacing the heuristic does not change paths or reachability -/

theorem isPath_zeroHeuristic (S : State σ) :
    ∀ (p : List (Nat × σ)) (s : σ),
      IsPath (zeroHeuristic S) s p ↔ IsPath S s p := by
  intro p
  induction p with
  | nil => intro s; exact Iff.rfl
  | cons e q ih => intro s; exact and_congr Iff.rfl (ih e.2)

theorem reachTo_zeroHeuristic (S : State σ) (starts : List σ) (u : σ)
    (g : Nat) : ReachTo (zeroHeuristic S) starts u g ↔ ReachTo S starts u g := by
  constructor <;> rintro ⟨s0, h0, p, hp, hc, he⟩
  · exact ⟨s0, h0, p, (isPath_zeroHeuristic S p s0).mp hp, hc, he⟩
  · exact ⟨s0, h0, p, (isPath_zeroHeuristic S p s0).mpr hp, hc, he⟩

theorem goalCost_zeroHeuristic (S : State σ) (starts : List σ) (n : Nat) :
    GoalCost (zeroHeuristic S) starts n ↔ GoalCost S starts n := by
  constructor <;> rintro ⟨s0, h0, p, hp, hc, he⟩
  · exact ⟨s0, h0, p, (isPath_zeroHeuristic S p s0).mp hp, hc, he⟩
  · exact ⟨s0, h0, p, (isPath_zeroHeuristic S p s0).mpr hp, hc, he⟩

theorem fuelBound_zeroHeuristic (S : State σ) [DecidableEq σ]
    (L starts : List σ) :
    fuelBound (zeroHeuristic S) L starts = fuelBound S L starts := rfl

/-- C4 counterexample: with the merely admissible (inconsistent) heuristic of
`cexSpace`, `solve` returns cost `7`, while the same graph searched with the
constant-zero heuristic (plain Dijkstra) returns cost `6`: the heuristic
changed the returned cost. -/
theorem zero_vs_admissible_differs :
    Admissible cexSpace ∧
      solve cexSpace [V4.S] 10 = .found 7 V4.G ∧
      solve (zeroHeuristic cexSpace) [V4.S] 10 = .found 6 V4.G :=
  ⟨cexSpace_admissible, by decide, by decide⟩

/-- C4 (amended): for every finite state graph with non-negative edge costs,
`solve` with the constant-zero heuristic (uniform-cost / Dijkstra search)
returns a result with the same cost — and the same presence or absence of a
result — as `solve` with any admissible AND CONSISTENT heuristic on the same
graph: such a heuristic affects only the exploration order, never the
returned cost. -/
theorem zero_heuristic_same_cost (S : State σ) [DecidableEq σ]
    (L starts : List σ) (HL : ∀ u g, ReachTo S starts u g → u ∈ L)
    (hadm : Admissible S) (hcons : Consistent S) (fuel : Nat)
    (hfuel : fuelBound S L starts ≤ fuel) :
    (∃ g t t', solve S starts fuel = .found g t ∧
      solve (zeroHeuristic S) starts fuel = .found g t') ∨
    (solve S starts fuel = .exhausted ∧
      solve (zeroHeuristic S) starts fuel = .exhausted) := by
  have HL0 : ∀ u g, ReachTo (zeroHeuristic S) starts u g → u ∈ L :=
    fun u g h => HL u g ((reachTo_zeroHeuristic S starts u g).mp h)
  have hfuel0 : fuelBound (zeroHeuristic S) L starts ≤ fuel := by
    rw [fuelBound_zeroHeuristic]; exact hfuel
  rcases solve_spec S L starts HL hadm hcons fuel hfuel with
    ⟨g, t, hfound, hach, hmin⟩ | ⟨hex, hnone⟩ <;>
  rcases solve_spec (zeroHeuristic S) L starts HL0
      (zeroHeuristic_admissible S) (zeroHeuristic_consistent S) fuel hfuel0 with
    ⟨g0, t0, hfound0, hach0, hmin0⟩ | ⟨hex0, hnone0⟩
  · have hach0' := (goalCost_zeroHeuristic S starts g0).mp hach0
    have h1 : g ≤ g0 := hmin g0 hach0'
    have h2 : g0 ≤ g := hmin0 g ((goalCost_zeroHeuristic S starts g).mpr hach)
    have : g = g0 := Nat.le_antisymm h1 h2
    subst this
    exact Or.inl ⟨g, t, t0, hfound, hfound0⟩
  · exact absurd ((goalCost_zeroHeuristic S starts g).mpr hach) (hnone0 g)
  · exact absurd ((goalCost_zeroHeuristic S starts g0).mp hach0) (hnone g0)
  · exact Or.inr ⟨hex, hex0⟩

/-- Witness for C4's amended theorem: the graph of `cexSpace` with the
exact-distance heuristic (admissible and consistent) against its Dijkstra
run. -/
theorem zero_heuristic_same_cost_witness :
    fuelBound distSpace [V4.S, V4.A, V4.B, V4.G] [V4.S] ≤ 30 ∧
    ((∃ g t t', solve distSpace [V4.S] 30 = .found g t ∧
      solve (zeroHeuristic distSpace) [V4.S] 30 = .found g t') ∨
    (solve distSpace [V4.S] 30 = .exhausted ∧
      solve (zeroHeuristic distSpace) [V4.S] 30 = .exhausted)) :=
  ⟨by decide, zero_heuristic_same_cost distSpace [V4.S, V4.A, V4.B, V4.G]
    [V4.S] (fun u g _ => V4_mem_all u) distSpace_admissible
    distSpace_consistent 30 (by decide)⟩

/-! ### C2: the goal test happens at pop time (two-path scenario) -/

inductive V2 where
  | X | Y
deriving DecidableEq

/-- Two direct paths of cost 5 and 3 from the start `X` to the goal `Y`; the
cost-5 edge is enumerated first by `successors`. -/
def twoPathA : State V2 where
  heuristic := fun _ => 0
  successors := fun v => match v with
    | .X => [(5, .Y), (3, .Y)]
    | .Y => []
  is_end := fun v => match v with
    | .X => false | .Y => true

/-- The same graph with the opposite successor enumeration order. -/
def twoPathB : State V2 where
  heuristic := fun _ => 0
  successors := fun v => match v with
    | .X => [(3, .Y), (5, .Y)]
    | .Y => []
  is_end := fun v => match v with
    | .X => false | .Y => true

/-- C2: because the goal predicate is evaluated on states as they are popped
from the frontier (not as they are generated), the two-path graph returns the
cheaper cost 3 — never 5 — for both successor enumeration orders (a
generation-time test would return 5 for `twoPathA`, whose cost-5 edge is
generated first).  Any fuel of at least 2 iterations gives this result. -/
theorem two_path_returns_cheaper :
    ∀ fuel, 2 ≤ fuel →
      solve twoPathA [V2.X] fuel = .found 3 V2.Y ∧
      solve twoPathB [V2.X] fuel = .found 3 V2.Y := by
  intro fuel hfuel
  have hA : solve twoPathA [V2.X] 2 = .found 3 V2.Y := by decide
  have hB : solve twoPathB [V2.X] 2 = .found 3 V2.Y := by decide
  constructor
  · rw [solve_stable (by rw [hA]; intro h; cases h) hfuel, hA]
  · rw [solve_stable (by rw [hB]; intro h; cases h) hfuel, hB]

/-- Witness for C2 at fuel 2. -/
theorem two_path_returns_cheaper_witness :
    (2 ≤ 2) ∧ solve twoPathA [V2.X] 2 = .found 3 V2.Y ∧
      solve twoPathB [V2.X] 2 = .found 3 V2.Y :=
  ⟨Nat.le_refl 2, two_path_returns_cheaper 2 (Nat.le_refl 2)⟩

/-- C3: on a state space whose reachable states all belong to a list `L`,
`solve` terminates — with fuel `fuelBound` the result is already not
`outOfFuel`, and any larger fuel returns the same result (each state-key is
finalized at most once: the expand branch of the loop fires only for keys not
yet in the visited set, which bounds the measure behind `fuelBound`). -/
theorem solve_terminates_on_finite (S : State σ) [DecidableEq σ]
    (L starts : List σ) (HL : ∀ u g, ReachTo S starts u g → u ∈ L) :
    solve S starts (fuelBound S L starts) ≠ .outOfFuel ∧
    ∀ fuel, fuelBound S L starts ≤ fuel →
      solve S starts fuel = solve S starts (fuelBound S L starts) := by
  have h := solve_not_outOfFuel HL (Nat.le_refl (fuelBound S L starts))
  exact ⟨h, fun fuel hf => solve_stable h hf⟩

/-- Witness for C3 on the two-path graph. -/
theorem solve_terminates_on_finite_witness :
    solve twoPathA [V2.X] (fuelBound twoPathA [V2.X, V2.Y] [V2.X]) ≠
      .outOfFuel ∧
    ∀ fuel, fuelBound twoPathA [V2.X, V2.Y] [V2.X] ≤ fuel →
      solve twoPathA [V2.X] fuel =
        solve twoPathA [V2.X] (fuelBound twoPathA [V2.X, V2.Y] [V2.X]) :=
  solve_terminates_on_finite twoPathA [V2.X, V2.Y] [V2.X]
    (fun u g _ => by cases u <;> decide)

/-! ### C5: multiple start states share one frontier -/

/-- Combination of two optional costs, `none` meaning "no result". -/
def minOpt : Option Nat → Option Nat → Option Nat
  | some a, some b => some (min a b)
  | some a, none => some a
  | none, b => b

theorem goalCost_pair_iff (S : State σ) (A B : σ) (n : Nat) :
    GoalCost S [A, B] n ↔ GoalCost S [A] n ∨ GoalCost S [B] n := by
  constructor
  · rintro ⟨s0, hs0, hp⟩
    rcases List.mem_cons.mp hs0 with rfl | hs0'
    · exact Or.inl ⟨s0, List.mem_singleton.mpr rfl, hp⟩
    · rw [List.mem_singleton] at hs0'
      subst hs0'
      exact Or.inr ⟨s0, List.mem_singleton.mpr rfl, hp⟩
  · rintro (⟨s0, hs0, hp⟩ | ⟨s0, hs0, hp⟩)
    · rw [List.mem_singleton] at hs0
      subst hs0
      exact ⟨s0, List.mem_cons_self _ _, hp⟩
    · rw [List.mem_singleton] at hs0
      subst hs0
      exact ⟨s0, List.mem_cons_of_mem _ (List.mem_cons_self _ _), hp⟩

/-- C5: under the A* optimality preconditions (admissible and consistent
heuristic, non-negative costs, finite reachable space), `solve` on the start
set `{A, B}` returns the same cost as the minimum of the costs of
`solve {A}` and `solve {B}` run separately, `None` counting as "no cost". -/
theorem multi_start_min_eq (S : State σ) [DecidableEq σ] (L : List σ)
    (A B : σ) (HL : ∀ u g, ReachTo S [A, B] u g → u ∈ L)
    (hadm : Admissible S) (hcons : Consistent S) (fuel : Nat)
    (hfuel : fuelBound S L [A, B] ≤ fuel) :
    costOf (solve S [A, B] fuel) =
      minOpt (costOf (solve S [A] fuel)) (costOf (solve S [B] fuel)) := by
  have hsubA : ∀ x ∈ [A], x ∈ [A, B] := by
    intro x hx
    rw [List.mem_singleton] at hx
    subst hx
    exact List.mem_cons_self _ _
  have hsubB : ∀ x ∈ [B], x ∈ [A, B] := by
    intro x hx
    rw [List.mem_singleton] at hx
    subst hx
    exact List.mem_cons_of_mem _ (List.mem_cons_self _ _)
  have HLA : ∀ u g, ReachTo S [A] u g → u ∈ L :=
    fun u g h => HL u g (h.mono hsubA)
  have HLB : ∀ u g, ReachTo S [B] u g → u ∈ L :=
    fun u g h => HL u g (h.mono hsubB)
  have hfA : fuelBound S L [A] ≤ fuel := by
    unfold fuelBound at hfuel ⊢
    simp only [List.length_cons, List.length_singleton, List.length_nil]
      at hfuel ⊢
    omega
  have hfB : fuelBound S L [B] ≤ fuel := by
    unfold fuelBound at hfuel ⊢
    simp only [List.length_cons, List.length_singleton, List.length_nil]
      at hfuel ⊢
    omega
  rcases solve_spec S L [A, B] HL hadm hcons fuel hfuel with
    ⟨gab, tab, hab, hachab, hminab⟩ | ⟨hab, hnab⟩ <;>
  rcases solve_spec S L [A] HLA hadm hcons fuel hfA with
    ⟨ga, ta, ha, hacha, hmina⟩ | ⟨ha, hna⟩ <;>
  rcases solve_spec S L [B] HLB hadm hcons fuel hfB with
    ⟨gb, tb, hb, hachb, hminb⟩ | ⟨hb, hnb⟩ <;>
  rw [hab, ha, hb] <;> simp only [costOf, minOpt]
  · have h1 : gab ≤ ga := hminab ga ((goalCost_pair_iff S A B ga).mpr (Or.inl hacha))
    have h2 : gab ≤ gb := hminab gb ((goalCost_pair_iff S A B gb).mpr (Or.inr hachb))
    have h3 : ga ≤ gab ∨ gb ≤ gab := by
      rcases (goalCost_pair_iff S A B gab).mp hachab with h | h
      · exact Or.inl (hmina gab h)
      · exact Or.inr (hminb gab h)
    congr 1
    omega
  · have h1 : gab ≤ ga := hminab ga ((goalCost_pair_iff S A B ga).mpr (Or.inl hacha))
    have h3 : ga ≤ gab := by
      rcases (goalCost_pair_iff S A B gab).mp hachab with h | h
      · exact hmina gab h
      · exact absurd h (hnb gab)
    congr 1
    omega
  · have h2 : gab ≤ gb := hminab gb ((goalCost_pair_iff S A B gb).mpr (Or.inr hachb))
    have h3 : gb ≤ gab := by
      rcases (goalCost_pair_iff S A B gab).mp hachab with h | h
      · exact absurd h (hna gab)
      · exact hminb gab h
    congr 1
    omega
  · rcases (goalCost_pair_iff S A B gab).mp hachab with h | h
    · exact absurd h (hna gab)
    · exact absurd h (hnb gab)
  · exact absurd ((goalCost_pair_iff S A B ga).mpr (Or.inl hacha)) (hnab ga)
  · exact absurd ((goalCost_pair_iff S A B ga).mpr (Or.inl hacha)) (hnab ga)
  · exact absurd ((goalCost_pair_iff S A B gb).mpr (Or.inr hachb)) (hnab gb)

/-- Witness for C5 on the four-state graph with starts `S` and `A`:
`solve {S, A}` returns the minimum of the two separate runs. -/
theorem multi_start_min_eq_witness :
    fuelBound distSpace [V4.S, V4.A, V4.B, V4.G] [V4.S, V4.A] ≤ 40 ∧
    costOf (solve distSpace [V4.S, V4.A] 40) =
      minOpt (costOf (solve distSpace [V4.S] 40))
        (costOf (solve distSpace [V4.A] 40)) :=
  ⟨by decide, multi_start_min_eq distSpace [V4.S, V4.A, V4.B, V4.G]
    V4.S V4.A (fun u g _ => V4_mem_all u) distSpace_admissible
    distSpace_consistent 40 (by decide)⟩

/-! ### C7: start states that already satisfy the goal predicate -/

inductive V3 where
  | A | B | C
deriving DecidableEq

/-- A start set in which only the second start `B` is a goal; `B`'s heuristic
is large (and inadmissible), so `A` is popped first and expanded, and the goal
`C` found through it at cost 1 is returned instead of `B` at cost 0. -/
def goalStartSpace : State V3 where
  heuristic := fun v => match v with
    | .A => 0 | .B => 9 | .C => 0
  successors := fun v => match v with
    | .A => [(1, .C)] | .B => [] | .C => []
  is_end := fun v => match v with
    | .A => false | .B => true | .C => true

/-- C7 counterexample: a start state (`B`) satisfies the goal predicate, yet
`solve` returns cost `1` (not `0`), and it is not immediate — one iteration
of fuel is not enough, so `successors()` was evaluated (on the non-goal start
`A`, popped first). -/
theorem goal_start_not_immediate :
    goalStartSpace.is_end V3.B = true ∧ V3.B ∈ [V3.A, V3.B] ∧
      solve goalStartSpace [V3.A, V3.B] 10 = .found 1 V3.C ∧
      solve goalStartSpace [V3.A, V3.B] 1 = .outOfFuel :=
  ⟨rfl, by decide, by decide, by decide⟩

/-- C7 (amended): if EVERY start state satisfies the goal predicate (in
particular, a single start state that is a goal), `solve` returns cost `0`
with one of the start states immediately: one loop iteration (fuel 1)
suffices, so `successors()` is never called on any state. -/
theorem all_goal_starts_cost_zero (S : State σ) [DecidableEq σ]
    (starts : List σ) (hne : starts ≠ [])
    (hall : ∀ s ∈ starts, S.is_end s = true) :
    ∃ s0 ∈ starts, ∀ fuel, 1 ≤ fuel → solve S starts fuel = .found 0 s0 := by
  cases hpop : popMin S (starts.map fun s => (0, s)) with
  | none =>
    rw [popMin_eq_none_iff] at hpop
    cases starts with
    | nil => exact absurd rfl hne
    | cons a t => cases hpop
  | some er =>
    rcases er with ⟨⟨g, s0⟩, rest⟩
    have hmem := popMin_mem S hpop
    rcases List.mem_map.mp hmem with ⟨s1, hs1, heq⟩
    have hg : g = 0 := by cases heq; rfl
    have hss : s0 = s1 := by cases heq; rfl
    subst hg
    subst hss
    refine ⟨s0, hs1, ?_⟩
    intro fuel hfuel
    cases fuel with
    | zero => omega
    | succ f =>
      unfold solve
      rw [run_step_some hpop, if_neg (List.not_mem_nil s0), hall s0 hs1,
        if_pos rfl]

/-- Witness for C7's amended theorem: both starts `B` and `C` are goals, so
the result is `found 0` already at fuel 1. -/
theorem all_goal_starts_cost_zero_witness :
    ([V3.B, V3.C] ≠ ([] : List V3)) ∧
    (∀ s ∈ [V3.B, V3.C], goalStartSpace.is_end s = true) ∧
    ∃ s0 ∈ [V3.B, V3.C], ∀ fuel, 1 ≤ fuel →
      solve goalStartSpace [V3.B, V3.C] fuel = .found 0 s0 :=
  ⟨by decide, by decide,
    all_goal_starts_cost_zero goalStartSpace [V3.B, V3.C] (by decide)
      (by decide)⟩

end a_star

namespace common

/-- Modelled from the spec: `crate::common`'s `Direction` enum is not under
`src/`; the spec lists "direction enums" among the excluded per-puzzle
collaborators.  Reconstructed from its use in `day17.rs`: four compass
directions with `turn_left`/`turn_right` and a unit `step`. -/
inductive Direction where
  | North | East | South | West
deriving DecidableEq

/-- Modelled from the spec: counter-clockwise quarter turn. -/
def Direction.turn_left : Direction → Direction
  | .North => .West
  | .West => .South
  | .South => .East
  | .East => .North

/-- Modelled from the spec: clockwise quarter turn. -/
def Direction.turn_right : Direction → Direction
  | .North => .East
  | .East => .South
  | .South => .West
  | .West => .North

/-- Modelled from the spec: `crate::common`'s `Position` is not under `src/`
("grid coordinates" are an excluded collaborator per the spec); a pair of
`i64` coordinates (modelled as `Int`), `y` growing downwards as in the
`(x, y) = (column, line)` parsing of `day17.rs`. -/
structure Position where
  x : Int
  y : Int
deriving DecidableEq

/-- Modelled from the spec: the `(0, 0)` corner used to seed the search. -/
def Position.origin : Position := ⟨0, 0⟩

/-- Modelled from the spec: move one cell in a direction. -/
def Position.step (p : Position) : Direction → Position
  | .North => ⟨p.x, p.y - 1⟩
  | .South => ⟨p.x, p.y + 1⟩
  | .East => ⟨p.x + 1, p.y⟩
  | .West => ⟨p.x - 1, p.y⟩

/-- Modelled from the spec: Manhattan distance, the day-17 heuristic. -/
def Position.manhattan_distance_to (p q : Position) : Nat :=
  (p.x - q.x).natAbs + (p.y - q.y).natAbs

theorem Direction.mem_all (d : Direction) :
    d ∈ [Direction.North, Direction.East, Direction.South, Direction.West] := by
  cases d <;> decide

theorem Direction.turn_left_ne (d : Direction) : d.turn_left ≠ d := by
  cases d <;> decide

theorem Direction.turn_right_ne (d : Direction) : d.turn_right ≠ d := by
  cases d <;> decide

end common

namespace day17

open common

/-- `Crucible` of `day17.rs` lines 8–12: the turning constraints; `min_row`
and `max_row` are `u8` (modelled as `Nat`). -/
structure Crucible where
  min_row : Nat
  max_row : Nat
deriving DecidableEq

/-- `day17.rs` lines 15–17: `steps_in_direction >= self.min_row`. -/
def Crucible.can_turn (c : Crucible) (steps_in_direction : Nat) : Bool :=
  decide (c.min_row ≤ steps_in_direction)

/-- `day17.rs` lines 19–21: `steps_in_direction >= self.max_row`. -/
def Crucible.must_turn (c : Crucible) (steps_in_direction : Nat) : Bool :=
  decide (c.max_row ≤ steps_in_direction)

/-- `day17.rs` lines 23–25: `steps_in_direction >= self.min_row` — the same
threshold as `can_turn`. -/
def Crucible.can_stop (c : Crucible) (steps_in_direction : Nat) : Bool :=
  decide (c.min_row ≤ steps_in_direction)

/-- `Grid` of `day17.rs` lines 28–32; the `HashMap<Position, u64>` is
modelled as an association list (heat-loss values are `u64`, modelled as
`Nat`; coordinates are `i64`, modelled as `Int`). -/
structure Grid where
  width : Int
  height : Int
  heat_loss : List (Position × Nat)
deriving DecidableEq

/-- `HashMap::get` on the modelled map. -/
def Grid.get (g : Grid) (p : Position) : Option Nat :=
  (g.heat_loss.find? fun e => decide (e.1 = p)).map Prod.snd

/-- `Grid::new`, `day17.rs` lines 35–43: NOTE that the source computes both
`width` (line 36) and `height` (line 37) from `pos.x` — the `height` line
also maps `|pos| pos.x`. -/
def Grid.new (heat_loss : List (Position × Nat)) : Grid :=
  { width := ((heat_loss.map fun e => e.1.x).max?).getD 0,
    height := ((heat_loss.map fun e => e.1.x).max?).getD 0,
    heat_loss := heat_loss }

/-- `State` of `day17.rs` lines 64–72 (the borrowed `&Grid` is modelled by
value). -/
structure State where
  grid : Grid
  crucible : Crucible
  position : Position
  target : Position
  direction : Direction
  steps_in_direction : Nat
deriving DecidableEq

/-- `State::step`, `day17.rs` lines 75–90. -/
def State.step (s : State) (direction : Direction) : State :=
  let position := s.position.step direction
  let steps_in_direction :=
    if direction = s.direction then s.steps_in_direction + 1 else 1
  { grid := s.grid, crucible := s.crucible, position := position,
    target := s.target, direction := direction,
    steps_in_direction := steps_in_direction }

/-- The `PartialEq for State` impl, `day17.rs` lines 103–109: equality
compares only `position`, `direction` and `steps_in_direction`. -/
def State.eqRel (a b : State) : Prop :=
  a.position = b.position ∧ a.direction = b.direction ∧
    a.steps_in_direction = b.steps_in_direction

/-- The data fed to the hasher by the `Hash for State` impl, `day17.rs`
lines 113–119: exactly `position`, `direction`, `steps_in_direction`, in that
order. -/
def State.hashFields (a : State) : Position × Direction × Nat :=
  (a.position, a.direction, a.steps_in_direction)

/-- `heuristic` of the `a_star::State` impl, `day17.rs` lines 122–124. -/
def State.heuristic (s : State) : Nat :=
  s.position.manhattan_distance_to s.target

/-- `successors` of the `a_star::State` impl, `day17.rs` lines 126–146:
straight on unless `must_turn`, plus left and right turns when `can_turn`,
keeping only positions present in the heat-loss map, each tagged with the
heat loss of the entered cell. -/
def State.successors (s : State) : List (Nat × State) :=
  ((if s.crucible.must_turn s.steps_in_direction then []
      else [s.step s.direction]) ++
    (if s.crucible.can_turn s.steps_in_direction then
      [s.step s.direction.turn_left, s.step s.direction.turn_right]
      else [])).filterMap fun state =>
    (s.grid.get state.position).map fun heat_loss => (heat_loss, state)

/-- `is_end` of the `a_star::State` impl, `day17.rs` lines 148–150. -/
def State.is_end (s : State) : Bool :=
  decide (s.position = s.target) &&
    s.crucible.can_stop s.steps_in_direction

/-- The `a_star::State` capability record of the day-17 `State` (the trait
impl of `day17.rs` lines 121–151). -/
def stateSpace : a_star.State State where
  heuristic := State.heuristic
  successors := State.successors
  is_end := State.is_end

/-- The two seeded start states of `find_min_heat_loss`, `day17.rs` lines
155–167: position `origin`, target `(grid.width, grid.height)`, heading East
and South, zero steps taken. -/
def startStates (grid : Grid) (crucible : Crucible) : List State :=
  [Direction.East, Direction.South].map fun direction =>
    { grid := grid, crucible := crucible, position := Position.origin,
      target := ⟨grid.width, grid.height⟩, direction := direction,
      steps_in_direction := 0 }

/-- `find_min_heat_loss`, `day17.rs` lines 153–171: the `Option` is the
result of `a_star::solve(...)` mapped to its `cost`; the source calls
`.unwrap()` on it, so a `none` here is precisely the panic of the source. -/
def find_min_heat_loss (grid : Grid) (crucible : Crucible) (fuel : Nat) :
    Option Nat :=
  a_star.costOf (a_star.solve stateSpace (startStates grid crucible) fuel)

/-- The part-1 crucible of `Solver::solve`, `day17.rs` lines 183–186. -/
def part1Crucible : Crucible := { min_row := 0, max_row := 3 }

/-- The part-2 "ultra" crucible of `Solver::solve`, `day17.rs` lines
189–192. -/
def part2Crucible : Crucible := { min_row := 4, max_row := 10 }

/-- C6: `Grid::new` sets both the `width` field and the `height` field to
the maximum x-coordinate occurring among the map's positions (`0` for an
empty map) — the `height` line of the source also reads `pos.x` — so width
always equals height, and `find_min_heat_loss` therefore seeds its searches
with the target position `(max_x, max_x)` regardless of the grid's maximum
y-coordinate (the maps `m` below are unconstrained in `y`). -/
theorem grid_new_width_height_max_x :
    ∀ (m : List (Position × Nat)) (crucible : Crucible),
      (Grid.new m).height = (Grid.new m).width ∧
      (∀ e ∈ m, e.1.x ≤ (Grid.new m).width) ∧
      (m = [] → (Grid.new m).width = 0) ∧
      (m ≠ [] → ∃ e ∈ m, (Grid.new m).width = e.1.x) ∧
      (∀ st ∈ startStates (Grid.new m) crucible,
        st.target = ⟨(Grid.new m).width, (Grid.new m).width⟩) := by
  intro m crucible
  refine ⟨rfl, ?_, ?_, ?_, ?_⟩
  · intro e he
    cases hmax : (m.map fun e => e.1.x).max? with
    | none =>
      rw [List.max?_eq_none_iff, List.map_eq_nil_iff] at hmax
      subst hmax
      cases he
    | some a =>
      have hle := (List.max?_le_iff (fun a b c => max_le_iff) hmax).mp
        (le_refl a)
      have hmem : e.1.x ∈ m.map fun e => e.1.x := List.mem_map.mpr ⟨e, he, rfl⟩
      have hw : (Grid.new m).width = a := by simp [Grid.new, hmax]
      rw [hw]
      exact hle _ hmem
  · intro hm
    subst hm
    rfl
  · intro hm
    cases hmax : (m.map fun e => e.1.x).max? with
    | none =>
      rw [List.max?_eq_none_iff, List.map_eq_nil_iff] at hmax
      exact absurd hmax hm
    | some a =>
      have hmem := List.max?_mem (fun a b => max_choice a b) hmax
      rcases List.mem_map.mp hmem with ⟨e, he, heq⟩
      refine ⟨e, he, ?_⟩
      simp [Grid.new, hmax, heq]
  · intro st hst
    simp only [startStates, List.mem_map, List.mem_cons,
      List.not_mem_nil, or_false] at hst
    rcases hst with ⟨d, hd, rfl⟩
    rfl

/-- Witness for C6 on a map whose maximum x is 2 but maximum y is 5: both
`width` and `height` are 2 and the search targets `(2, 2)`. -/
theorem grid_new_width_height_max_x_witness :
    ([((⟨0, 0⟩ : Position), 1), (⟨2, 0⟩, 1), (⟨0, 5⟩, 1)] ≠
      ([] : List (Position × Nat))) ∧
    (∃ e ∈ [((⟨0, 0⟩ : Position), 1), (⟨2, 0⟩, 1), (⟨0, 5⟩, 1)],
      (Grid.new [(⟨0, 0⟩, 1), (⟨2, 0⟩, 1), (⟨0, 5⟩, 1)]).width = e.1.x) ∧
    (Grid.new [((⟨0, 0⟩ : Position), 1), (⟨2, 0⟩, 1), (⟨0, 5⟩, 1)]).height =
      (Grid.new [(⟨0, 0⟩, 1), (⟨2, 0⟩, 1), (⟨0, 5⟩, 1)]).width :=
  ⟨by decide,
    (grid_new_width_height_max_x [(⟨0, 0⟩, 1), (⟨2, 0⟩, 1), (⟨0, 5⟩, 1)]
      part1Crucible).2.2.2.1 (by decide),
    (grid_new_width_height_max_x [(⟨0, 0⟩, 1), (⟨2, 0⟩, 1), (⟨0, 5⟩, 1)]
      part1Crucible).1⟩

/-- C8: two day-17 states are equal under the `PartialEq` impl exactly when
their `position`, `direction` and `steps_in_direction` agree (the `grid`,
`target` and `crucible` fields are ignored), and any two equal states feed
identical data to any hasher, because the `Hash` impl hashes exactly those
same three fields. -/
theorem state_eq_hash_fields :
    (∀ a b : State, State.eqRel a b ↔
      (a.position = b.position ∧ a.direction = b.direction ∧
        a.steps_in_direction = b.steps_in_direction)) ∧
    (∀ a b : State, State.eqRel a b →
      State.hashFields a = State.hashFields b) ∧
    (∀ (γ : Type) (hasher : Position × Direction × Nat → γ) (a b : State),
      State.eqRel a b →
        hasher (State.hashFields a) = hasher (State.hashFields b)) ∧
    (∀ (a : State) (g' : Grid) (t' : Position) (c' : Crucible),
      State.eqRel a { a with grid := g', target := t', crucible := c' }) := by
  refine ⟨fun a b => Iff.rfl, ?_, ?_, ?_⟩
  · rintro a b ⟨h1, h2, h3⟩
    simp [State.hashFields, h1, h2, h3]
  · rintro γ hasher a b ⟨h1, h2, h3⟩
    simp [State.hashFields, h1, h2, h3]
  · intro a g' t' c'
    exact ⟨rfl, rfl, rfl⟩

/-- Two concrete states reached "via different paths": same place in the
state space, entirely different `grid`, `target` and `crucible`. -/
def stateP : State :=
  { grid := Grid.new [(Position.origin, 1)], crucible := part1Crucible,
    position := ⟨1, 2⟩, target := ⟨5, 5⟩, direction := Direction.East,
    steps_in_direction := 2 }

def stateQ : State :=
  { grid := Grid.new [], crucible := part2Crucible,
    position := ⟨1, 2⟩, target := ⟨0, 9⟩, direction := Direction.East,
    steps_in_direction := 2 }

/-- Witness for C8: `stateP` and `stateQ` differ in `grid`, `target` and
`crucible` but compare equal and hash-feed identical data. -/
theorem state_eq_hash_fields_witness :
    State.eqRel stateP stateQ ∧
    State.hashFields stateP = State.hashFields stateQ ∧
    stateP.target ≠ stateQ.target ∧ stateP.grid ≠ stateQ.grid ∧
    stateP.crucible ≠ stateQ.crucible :=
  ⟨⟨rfl, rfl, rfl⟩,
    state_eq_hash_fields.2.1 stateP stateQ ⟨rfl, rfl, rfl⟩,
    by decide, by decide, by decide⟩

/-- C10: a day-17 state passes the goal test `is_end` exactly when its
position equals the target AND `steps_in_direction` has reached the
crucible's `min_row` (`can_stop` uses the very threshold of `can_turn`); in
particular with the part-2 ultra crucible (`min_row = 4`) a state at the
target after fewer than 4 consecutive steps is not accepted as a goal. -/
theorem is_end_iff_target_and_can_stop :
    (∀ s : State, s.is_end = true ↔
      (s.position = s.target ∧ s.crucible.min_row ≤ s.steps_in_direction)) ∧
    (∀ (c : Crucible) (k : Nat), c.can_stop k = c.can_turn k) ∧
    (∀ s : State, s.crucible = part2Crucible → s.position = s.target →
      s.steps_in_direction < 4 → s.is_end = false) := by
  refine ⟨?_, fun c k => rfl, ?_⟩
  · intro s
    simp [State.is_end, Crucible.can_stop]
  · intro s h1 h2 h3
    simp [State.is_end, Crucible.can_stop, h1, h2, part2Crucible]
    omega

/-! ### C9: `find_min_heat_loss` panics exactly when no goal is reachable

The day-17 state space is effectively finite: every reachable state keeps the
search's grid, crucible and target, sits on a position of the heat-loss map
(successors are filtered through `Grid.get`) — except the two seeds — and
carries at most `max_row + 1` consecutive steps. -/

theorem step_fields (s : State) (d : Direction) :
    (s.step d).grid = s.grid ∧ (s.step d).crucible = s.crucible ∧
      (s.step d).target = s.target :=
  ⟨rfl, rfl, rfl⟩

theorem step_steps (s : State) (d : Direction) :
    (s.step d).steps_in_direction =
      if d = s.direction then s.steps_in_direction + 1 else 1 := rfl

/-- What one successor step can produce: the context fields are preserved,
the new position carries heat loss in the map, and the step counter either
resets to 1 (turn) or increments below `max_row` (straight). -/
theorem successors_spec {s : State} {c : Nat} {t : State}
    (h : (c, t) ∈ State.successors s) :
    t.grid = s.grid ∧ t.crucible = s.crucible ∧ t.target = s.target ∧
    (∃ e ∈ s.grid.heat_loss, e.1 = t.position) ∧
    (t.steps_in_direction = 1 ∨
      (t.steps_in_direction = s.steps_in_direction + 1 ∧
        s.steps_in_direction < s.crucible.max_row)) := by
  unfold State.successors at h
  rw [List.mem_filterMap] at h
  obtain ⟨cand, hcand, hf⟩ := h
  rw [Option.map_eq_some'] at hf
  obtain ⟨hl, hget, heq⟩ := hf
  have hct : cand = t := congrArg Prod.snd heq
  subst hct
  have hkey : ∃ e ∈ s.grid.heat_loss, e.1 = cand.position := by
    unfold Grid.get at hget
    rw [Option.map_eq_some'] at hget
    obtain ⟨e, hfind, -⟩ := hget
    refine ⟨e, List.mem_of_find?_eq_some hfind, ?_⟩
    have := List.find?_some hfind
    simpa using this
  rcases List.mem_append.mp hcand with hstr | hturn
  · by_cases hmt : s.crucible.must_turn s.steps_in_direction
    · rw [if_pos hmt] at hstr
      cases hstr
    · rw [if_neg hmt] at hstr
      rw [List.mem_singleton] at hstr
      subst hstr
      refine ⟨rfl, rfl, rfl, hkey, Or.inr ⟨?_, ?_⟩⟩
      · rw [step_steps, if_pos rfl]
      · unfold Crucible.must_turn at hmt
        simp only [decide_eq_true_eq] at hmt
        omega
  · by_cases hct : s.crucible.can_turn s.steps_in_direction
    · rw [if_pos hct] at hturn
      rcases List.mem_cons.mp hturn with rfl | hturn'
      · refine ⟨rfl, rfl, rfl, hkey, Or.inl ?_⟩
        rw [step_steps, if_neg (Direction.turn_left_ne s.direction)]
      · rw [List.mem_singleton] at hturn'
        subst hturn'
        refine ⟨rfl, rfl, rfl, hkey, Or.inl ?_⟩
        rw [step_steps, if_neg (Direction.turn_right_ne s.direction)]
    · rw [if_neg hct] at hturn
      cases hturn

/-- A finite list containing every state the day-17 search can reach: the
two seeds plus every combination of map position, direction, and step count
below `max_row + 2`. -/
def searchUniverse (grid : Grid) (crucible : Crucible) : List State :=
  startStates grid crucible ++
    (grid.heat_loss.map fun e => e.1).flatMap fun p =>
      [Direction.North, Direction.East, Direction.South,
        Direction.West].flatMap fun d =>
        (List.range (crucible.max_row + 2)).map fun k =>
          { grid := grid, crucible := crucible, position := p,
            target := ⟨grid.width, grid.height⟩, direction := d,
            steps_in_direction := k }

theorem mem_searchUniverse_fields {grid : Grid} {crucible : Crucible}
    {x : State} (hx : x ∈ searchUniverse grid crucible) :
    x.grid = grid ∧ x.crucible = crucible ∧
      x.target = ⟨grid.width, grid.height⟩ := by
  rcases List.mem_append.mp hx with hseed | hprod
  · simp only [startStates, List.mem_map, List.mem_cons,
      List.not_mem_nil, or_false] at hseed
    rcases hseed with ⟨d, hd, rfl⟩
    exact ⟨rfl, rfl, rfl⟩
  · rw [List.mem_flatMap] at hprod
    obtain ⟨p, hp, hprod⟩ := hprod
    rw [List.mem_flatMap] at hprod
    obtain ⟨d, hd, hprod⟩ := hprod
    rw [List.mem_map] at hprod
    obtain ⟨k, hk, rfl⟩ := hprod
    exact ⟨rfl, rfl, rfl⟩

theorem searchUniverse_closed (grid : Grid) (crucible : Crucible) :
    ∀ x ∈ searchUniverse grid crucible, ∀ c u,
      (c, u) ∈ stateSpace.successors x →
        u ∈ searchUniverse grid crucible := by
  intro x hx c u hcu
  obtain ⟨hxg, hxc, hxt⟩ := mem_searchUniverse_fields hx
  obtain ⟨hug, huc, hut, ⟨e, he, hep⟩, hsteps⟩ := successors_spec hcu
  have h1 : u.grid = grid := hug.trans hxg
  have h2 : u.crucible = crucible := huc.trans hxc
  have h3 : u.target = ⟨grid.width, grid.height⟩ := hut.trans hxt
  apply List.mem_append.mpr
  right
  rw [List.mem_flatMap]
  refine ⟨u.position, ?_, ?_⟩
  · rw [List.mem_map]
    refine ⟨e, ?_, hep⟩
    rw [← hxg]
    exact he
  rw [List.mem_flatMap]
  refine ⟨u.direction, Direction.mem_all _, ?_⟩
  rw [List.mem_map]
  refine ⟨u.steps_in_direction, ?_, ?_⟩
  · rw [List.mem_range]
    rcases hsteps with hs1 | ⟨hs2, hlt⟩
    · omega
    · rw [hxc] at hlt
      omega
  · cases u
    simp only at h1 h2 h3
    subst h1
    subst h2
    subst h3
    rfl

/-- Every state reachable by the day-17 search lies in `searchUniverse`. -/
theorem day17_reach_subset (grid : Grid) (crucible : Crucible) :
    ∀ u g, a_star.ReachTo stateSpace (startStates grid crucible) u g →
      u ∈ searchUniverse grid crucible :=
  a_star.reach_subset (fun s hs => List.mem_append_left _ hs)
    (searchUniverse_closed grid crucible)

/-- Sufficient fuel for any day-17 search. -/
def searchFuelBound (grid : Grid) (crucible : Crucible) : Nat :=
  a_star.fuelBound stateSpace (searchUniverse grid crucible)
    (startStates grid crucible)

/-- C9: `find_min_heat_loss` unwraps the engine's `Option`, so (modelled:
result `none`) it panics exactly when no goal state is reachable from the two
seeded start states; under the precondition that the target is reachable by a
path respecting the crucible's turning constraints (`GoalCost` for the day-17
space), the panic branch is unreachable. -/
theorem find_min_heat_loss_none_iff (grid : Grid) (crucible : Crucible)
    (fuel : Nat) (hfuel : searchFuelBound grid crucible ≤ fuel) :
    find_min_heat_loss grid crucible fuel = none ↔
      ∀ n, ¬ a_star.GoalCost stateSpace (startStates grid crucible) n := by
  have hno :=
    a_star.solve_not_outOfFuel (day17_reach_subset grid crucible) hfuel
  unfold find_min_heat_loss
  cases hres : a_star.solve stateSpace (startStates grid crucible) fuel with
  | outOfFuel => exact absurd hres hno
  | exhausted =>
    simp only [a_star.costOf]
    constructor
    · intro _
      exact a_star.run_exhausted_complete fuel [] _
        (a_star.invSound_init stateSpace (startStates grid crucible)) hres
    · intro _
      trivial
  | found g t =>
    simp only [a_star.costOf]
    constructor
    · intro h
      cases h
    · intro hnone
      obtain ⟨hend, s0, hs0, p, hp, hc, he⟩ :=
        a_star.run_found_sound fuel [] _ g t
          (a_star.invSound_init stateSpace (startStates grid crucible)) hres
      exact absurd ⟨s0, hs0, p, hp, hc, by rw [he]; exact hend⟩ (hnone g)

/-- Witness for C9 on a one-cell grid with a stop-anywhere crucible: the
seeded start already satisfies the goal, so the panic branch is provably
unreachable (`find_min_heat_loss ≠ none` follows from the iff). -/
theorem find_min_heat_loss_none_iff_witness :
    searchFuelBound (Grid.new [(Position.origin, 1)])
      { min_row := 0, max_row := 0 } ≤ 20 ∧
    (find_min_heat_loss (Grid.new [(Position.origin, 1)])
        { min_row := 0, max_row := 0 } 20 = none ↔
      ∀ n, ¬ a_star.GoalCost stateSpace
        (startStates (Grid.new [(Position.origin, 1)])
          { min_row := 0, max_row := 0 }) n) :=
  ⟨by decide,
    find_min_heat_loss_none_iff (Grid.new [(Position.origin, 1)])
      { min_row := 0, max_row := 0 } 20 (by decide)⟩

/-- A state of the part-2 search sitting on the target with only 3 straight
steps taken. -/
def stateAt3 : State :=
  { grid := Grid.new [(Position.origin, 1)], crucible := part2Crucible,
    position := Position.origin, target := Position.origin,
    direction := Direction.East, steps_in_direction := 3 }

/-- Witness for C10: at the target with 3 < 4 steps, the ultra crucible's
goal test rejects the state. -/
theorem is_end_iff_target_and_can_stop_witness :
    stateAt3.crucible = part2Crucible ∧ stateAt3.position = stateAt3.target ∧
    stateAt3.steps_in_direction < 4 ∧ stateAt3.is_end = false :=
  ⟨rfl, rfl, by decide,
    is_end_iff_target_and_can_stop.2.2 stateAt3 rfl rfl (by decide)⟩

end day17
